import Mathlib

/-!
Verification of the workflow rule engine in `backend/pharma_automation.py`.

The Python module is shallowly embedded below:

* Python dictionaries become insertion-ordered association lists
  (`List (String × α)`) with first-occurrence lookup/update, matching
  CPython's insertion-ordered `dict`.
* Python `None`/`bool`/`float`/`int`/`str` scalar values become the
  inductive type `Value`.  Floats are modelled as rationals; the
  non-finite specials (`inf`, `nan`) are outside the model, as is
  floating-point rounding.  `parsePyFloat` models Python's `float(str)`
  on finite decimal literals.
* `eval` of a rule's condition string under the restricted namespace is a
  host-language capability, not code of this repository; it is modelled
  as an explicit parameter `ev : Evaluator` where `ev code scope = none`
  models an evaluation that raises (NameError/TypeError/any exception)
  and `ev code scope = some b` models `bool(eval(code, ...)) = b`.
  All theorems quantify over every evaluator.
* The Kahn while-loop of `_get_topological_order` is written with an
  explicit fuel argument equal to a termination measure of the initial
  state; `kahnLoop_queue_empty` proves the fuel always suffices, i.e. the
  embedded loop runs to completion exactly like the Python `while queue:`.
-/

/-- First-occurrence lookup in an association list (Python `d[k]` / `d.get(k)`). -/
def dlookup {α : Type} : List (String × α) → String → Option α
  | [], _ => none
  | p :: rest, k => if p.1 = k then some p.2 else dlookup rest k

/-- Update the value at the first occurrence of `k`, leaving the list unchanged
when `k` is absent (Python `d[k] = v` on a present key keeps its position). -/
def dictSet {α : Type} : List (String × α) → String → α → List (String × α)
  | [], _, _ => []
  | p :: rest, k, v => if p.1 = k then (k, v) :: rest else p :: dictSet rest k v

/-- Python `d[k] = v`: overwrite the first occurrence in place, or append a new
entry when the key is absent. -/
def dictInsert {α : Type} (m : List (String × α)) (k : String) (v : α) :
    List (String × α) :=
  if (dlookup m k).isSome then dictSet m k v else m ++ [(k, v)]

/-- The keys of an association list, in insertion order. -/
def dictKeys {α : Type} (m : List (String × α)) : List String := m.map Prod.fst

/-- Python `d.get(k, [])` for the connection maps. -/
def bucketD {α : Type} (m : List (String × List α)) (k : String) : List α :=
  (dlookup m k).getD []

/-- Position of the first occurrence of `y` (the list-index used to state that
one node precedes another in the evaluation order). -/
def posOf : List String → String → Nat
  | [], _ => 0
  | x :: rest, y => if x = y then 0 else posOf rest y + 1

/-- Python `pat in s` (substring containment), used for `"ERROR_" in decision`. -/
def containsSub (pat s : String) : Bool :=
  (List.range (s.length + 1)).any fun i => pat.toList.isPrefixOf (s.toList.drop i)

/-- Model of Python `str.lower()` (ASCII case folding, per character). -/
def pyLower (s : String) : String := String.mk (s.toList.map Char.toLower)

/-- Model of Python `str.strip()`: drop leading and trailing whitespace. -/
def pyStrip (s : String) : String :=
  String.mk (((s.toList.dropWhile Char.isWhitespace).reverse.dropWhile
    Char.isWhitespace).reverse)

/-- Model of Python `str.startswith(pre)`. -/
def pyStartsWith (s pre : String) : Bool := pre.toList.isPrefixOf s.toList

/-- Model of Python `str.endswith(suf)`. -/
def pyEndsWith (s suf : String) : Bool :=
  suf.toList.reverse.isPrefixOf s.toList.reverse

/-- A Python scalar value as it appears in rows and in coercion results:
`None`, `bool`, `float` (modelled as `ℚ`), `int`, or `str`. -/
inductive Value : Type where
  | null : Value
  | bool : Bool → Value
  | num : ℚ → Value
  | int : ℤ → Value
  | str : String → Value
deriving DecidableEq, Repr

/-- Numeric value of a run of decimal digit characters. -/
def digitsVal (cs : List Char) : Nat :=
  cs.foldl (fun acc c => acc * 10 + (c.toNat - 48)) 0

/-- Model of Python `float(s)` on finite decimal literals: optional surrounding
whitespace, optional sign, digits with an optional fractional part, and an
optional exponent.  `none` models `ValueError`.  Non-finite specials
(`inf`, `nan`) and underscore digit separators are outside the model. -/
def parsePyFloat (s : String) : Option ℚ :=
  let cs := (pyStrip s).toList
  let (neg, cs) :=
    match cs with
    | '+' :: rest => (false, rest)
    | '-' :: rest => (true, rest)
    | rest => (false, rest)
  let intPart := cs.takeWhile Char.isDigit
  let cs1 := cs.dropWhile Char.isDigit
  let (fracPart, cs2) :=
    match cs1 with
    | '.' :: rest => (rest.takeWhile Char.isDigit, rest.dropWhile Char.isDigit)
    | rest => ([], rest)
  if intPart.isEmpty ∧ fracPart.isEmpty then none
  else
    let mant : ℚ :=
      (digitsVal intPart : ℚ) + (digitsVal fracPart : ℚ) / ((10 : ℚ) ^ fracPart.length)
    let signed : ℚ := if neg then -mant else mant
    match cs2 with
    | [] => some signed
    | e :: rest =>
      if e = 'e' ∨ e = 'E' then
        let (eneg, rest) :=
          match rest with
          | '+' :: r => (false, r)
          | '-' :: r => (true, r)
          | r => (false, r)
        let eDigits := rest.takeWhile Char.isDigit
        let rest2 := rest.dropWhile Char.isDigit
        if eDigits.isEmpty ∨ ¬ rest2.isEmpty then none
        else if eneg then some (signed / ((10 : ℚ) ^ digitsVal eDigits))
        else some (signed * ((10 : ℚ) ^ digitsVal eDigits))
      else none

/-- Model of Python `repr`/`str` of a float (only exercised on integral values
in this development). -/
def pyFloatRepr (q : ℚ) : String :=
  if q.den = 1 then toString q.num ++ ".0" else toString q

/-- Model of Python `str(value)`. -/
def pyStr : Value → String
  | .null => "None"
  | .bool true => "True"
  | .bool false => "False"
  | .num q => pyFloatRepr q
  | .int n => toString n
  | .str s => s

/-- Model of Python `float(value)`: numeric coercion, `none` models a raised
`ValueError`/`TypeError`. -/
def pyFloat : Value → Option ℚ
  | .null => none
  | .bool b => some (if b then 1 else 0)
  | .num q => some q
  | .int n => some (n : ℚ)
  | .str s => parsePyFloat s

/-- Model of Python `bool(value)` truthiness for scalar values. -/
def pyTruthy : Value → Bool
  | .null => false
  | .bool b => b
  | .num q => decide (q ≠ 0)
  | .int n => decide (n ≠ 0)
  | .str s => decide (s ≠ "")

/-- Python `int(float)`: truncation toward zero. -/
def truncInt (q : ℚ) : ℤ := if 0 ≤ q then ⌊q⌋ else ⌈q⌉

/-- `WorkflowEngine._cast_value` (backend/pharma_automation.py lines 83-101).
A `None` value returns `None` for every declared type (lines 84-86).  The
declared type is lowercased; `float`/`int` coerce numerically with failures
(`ValueError`/`TypeError`) caught to `None`; `str` stringifies; `bool` handles
`true`/`false` strings then numeric truthiness; any other declared type
returns the value unchanged (line 100). -/
def castValue (value : Value) (target_type_str : String) : Value :=
  match value with
  | .null => .null
  | v =>
    if pyLower target_type_str = "float" then
      match pyFloat v with
      | some q => .num q
      | none => .null
    else if pyLower target_type_str = "int" then
      match pyFloat v with
      | some q => .int (truncInt q)
      | none => .null
    else if pyLower target_type_str = "str" then .str (pyStr v)
    else if pyLower target_type_str = "bool" then
      match v with
      | .str s =>
        if pyLower s = "true" then .bool true
        else if pyLower s = "false" then .bool false
        else
          match parsePyFloat s with
          | some q => .bool (decide (q ≠ 0))
          | none => .null
      | w => .bool (pyTruthy w)
    else v

/-- Scanner for `re.findall(r'[a-zA-Z_][a-zA-Z0-9_]*', code_line)`: the second
argument is the reversed current token (`[]` when outside a token).  A token
starts at a letter or underscore and greedily continues over letters, digits
and underscores, exactly like the regex. -/
def scanIdentsAux : List Char → List Char → List String
  | [], [] => []
  | [], tok => [String.mk tok.reverse]
  | c :: cs, [] =>
    if c.isAlpha ∨ c = '_' then scanIdentsAux cs [c] else scanIdentsAux cs []
  | c :: cs, tok =>
    if c.isAlphanum ∨ c = '_' then scanIdentsAux cs (c :: tok)
    else String.mk tok.reverse :: scanIdentsAux cs []

/-- `re.findall(r'[a-zA-Z_][a-zA-Z0-9_]*', code_line)`: left-to-right maximal
identifier-shaped tokens. -/
def scanIdents (cs : List Char) : List String := scanIdentsAux cs []

/-- `WorkflowEngine._get_variables_from_code_line` (lines 103-104): the SET of
identifier tokens, modelled as the deduplicated list of first occurrences
(the rule-evaluation outcome is independent of the set's iteration order). -/
def getVariablesFromCodeLine (code_line : String) : List String :=
  (scanIdents code_line.toList).eraseDups

/-- A row: column name to scalar value, as produced by the CSV loader
(a Python dict; a present `None` value differs from an absent key). -/
abbrev Row := List (String × Value)

/-- Resolution of one identifier of a rule's condition against a row
(lines 128-143 of `process_event`): `none` models
`possible_to_evaluate_rule = False`; `some none` models an identifier that is
acceptable (numeric literal / quoted string) but adds no scope binding;
`some (some v)` models `eval_scope[var_name] = v`. -/
def resolveIdent (row : Row) (rule_variable_type : String) (var_name : String) :
    Option (Option Value) :=
  match dlookup row var_name with
  | some raw_csv_value =>
    let casted_value := castValue raw_csv_value rule_variable_type
    if casted_value = .null ∧ raw_csv_value ≠ .null then none
    else some (some casted_value)
  | none =>
    if pyLower var_name = "true" then some (some (.bool true))
    else if pyLower var_name = "false" then some (some (.bool false))
    else
      let is_literal_number := (parsePyFloat var_name).isSome
      let is_quoted_string_in_code :=
        (pyStartsWith var_name "'" ∧ pyEndsWith var_name "'") ∨
          (pyStartsWith var_name "\"" ∧ pyEndsWith var_name "\"")
      if is_literal_number ∨ is_quoted_string_in_code then some none
      else none

/-- The `for var_name in identifiers_in_code` loop of `process_event`
(lines 128-143): build `eval_scope`, failing (`none`) as soon as one
identifier is unresolvable. -/
def buildScope (row : Row) (rule_variable_type : String) :
    List String → Option (List (String × Value))
  | [] => some []
  | var_name :: rest =>
    match resolveIdent row rule_variable_type var_name with
    | none => none
    | some none => buildScope row rule_variable_type rest
    | some (some v) =>
      (buildScope row rule_variable_type rest).map (fun sc => (var_name, v) :: sc)

/-- The restricted `eval` of a rule condition: `some b` models
`bool(eval(code_line, restricted_globals, eval_scope)) = b`, `none` models any
raised exception (all caught at lines 149-151 with `result = False`). -/
abbrev Evaluator := String → List (String × Value) → Option Bool

/-- A node descriptor of the workflow JSON (`node_data` dict): optional fields
carry the `dict.get` defaults applied by the engine. -/
structure NodeDesc : Type where
  id : String
  type : String
  label : Option String
  numInputs : Option Nat
  numOutputs : Option Nat
  variableType : Option String
  codeLine : Option String
deriving DecidableEq, Repr

/-- A connection descriptor of the workflow JSON (`conn_data` dict). -/
structure ConnDesc : Type where
  id : String
  sourceNodeId : String
  sourceOutputKey : String
  targetNodeId : String
  targetInputKey : String
deriving DecidableEq, Repr

/-- A workflow description (`workflow_data` dict). -/
structure Workflow : Type where
  nodes : List NodeDesc
  connections : List ConnDesc
deriving Repr

/-- An entry of `self.nodes` (lines 35-41): the derived fields plus the raw
node descriptor stored under `"data"`. -/
structure Node : Type where
  id : String
  type : String
  label : String
  num_inputs : Nat
  num_outputs : Nat
  data : NodeDesc
deriving DecidableEq, Repr

/-- A `conn_info` record (lines 50-54). -/
structure Conn : Type where
  source_id : String
  source_output_key : String
  target_id : String
  target_input_key : String
  id : String
deriving DecidableEq, Repr

/-- The engine state after `__init__`. -/
structure Engine : Type where
  nodes : List (String × Node)
  connections_from_source : List (String × List Conn)
  connections_to_target : List (String × List Conn)
  node_order : List String
deriving Repr

/-- One iteration of the node loop of `_load_workflow_from_data`
(lines 33-43): store the node and initialize both connection buckets to `[]`. -/
def loadNodesStep
    (acc : List (String × Node) × List (String × List Conn) × List (String × List Conn))
    (node_data : NodeDesc) :
    List (String × Node) × List (String × List Conn) × List (String × List Conn) :=
  let node_id := node_data.id
  let node : Node :=
    { id := node_id, type := node_data.type
      label := node_data.label.getD node_data.type
      num_inputs := node_data.numInputs.getD 0
      num_outputs := node_data.numOutputs.getD 0
      data := node_data }
  (dictInsert acc.1 node_id node,
   dictInsert acc.2.1 node_id [],
   dictInsert acc.2.2 node_id [])

/-- The node loop of `_load_workflow_from_data` (lines 33-43). -/
def loadNodes (descs : List NodeDesc) :
    List (String × Node) × List (String × List Conn) × List (String × List Conn) :=
  descs.foldl loadNodesStep ([], [], [])

/-- The `conn_info` record built at lines 50-54. -/
def connOf (conn_data : ConnDesc) : Conn :=
  { source_id := conn_data.sourceNodeId, source_output_key := conn_data.sourceOutputKey
    target_id := conn_data.targetNodeId, target_input_key := conn_data.targetInputKey
    id := conn_data.id }

/-- One iteration of the connection loop of `_load_workflow_from_data`
(lines 45-56): a connection whose endpoints are not both loaded nodes is
skipped with a warning; otherwise its `conn_info` is appended to both
adjacency maps. -/
def loadConnsStep (nodes : List (String × Node))
    (acc : List (String × List Conn) × List (String × List Conn))
    (conn_data : ConnDesc) :
    List (String × List Conn) × List (String × List Conn) :=
  if (dlookup nodes conn_data.sourceNodeId).isSome ∧
      (dlookup nodes conn_data.targetNodeId).isSome then
    (dictInsert acc.1 conn_data.sourceNodeId
      (bucketD acc.1 conn_data.sourceNodeId ++ [connOf conn_data]),
     dictInsert acc.2 conn_data.targetNodeId
      (bucketD acc.2 conn_data.targetNodeId ++ [connOf conn_data]))
  else acc

def loadConns (nodes : List (String × Node))
    (maps : List (String × List Conn) × List (String × List Conn))
    (descs : List ConnDesc) :
    List (String × List Conn) × List (String × List Conn) :=
  descs.foldl (loadConnsStep nodes) maps

/-- The mutable state of the Kahn while-loop in `_get_topological_order`
(lines 63-77): `in_degree` (an `Int`-valued dict, as Python integers go
negative on over-decrement), the FIFO `queue`, the accumulating
`sorted_order`, and the `visited_in_sort` set (modelled as a list, queried
only for membership). -/
structure KahnState : Type where
  in_degree : List (String × Int)
  queue : List String
  sorted_order : List String
  visited_in_sort : List String
deriving Repr

/-- One iteration of the inner `for conn_info in connections_from_source`
loop (lines 72-77): decrement the target's in-degree if it is a known node,
and enqueue it when the in-degree reaches exactly zero and it is unvisited. -/
def kahnConnStep (visited : List String) (st : List (String × Int) × List String)
    (conn_info : Conn) : List (String × Int) × List String :=
  let v_id := conn_info.target_id
  match dlookup st.1 v_id with
  | some d =>
    let in_degree := dictSet st.1 v_id (d - 1)
    if d - 1 = 0 ∧ v_id ∉ visited then (in_degree, st.2 ++ [v_id])
    else (in_degree, st.2)
  | none => st

/-- The inner `for` loop over all outgoing connections of the node just
removed from the queue. -/
def kahnConns (visited : List String) :
    List Conn → List (String × Int) × List String → List (String × Int) × List String
  | [], st => st
  | c :: rest, st => kahnConns visited rest (kahnConnStep visited st c)

/-- The `while queue:` loop (lines 68-77), with explicit fuel.
`kahnLoop_queue_empty` below shows the fuel used by `getTopologicalOrder`
always suffices, so the embedding agrees with the unbounded Python loop. -/
def kahnLoop (connsFrom : List (String × List Conn)) : Nat → KahnState → KahnState
  | 0, st => st
  | fuel + 1, st =>
    match st.queue with
    | [] => st
    | u_id :: rest =>
      if u_id ∈ st.visited_in_sort then
        kahnLoop connsFrom fuel { st with queue := rest }
      else
        let visited := u_id :: st.visited_in_sort
        let sorted := st.sorted_order ++ [u_id]
        let dq := kahnConns visited (bucketD connsFrom u_id) (st.in_degree, rest)
        kahnLoop connsFrom fuel
          { in_degree := dq.1, queue := dq.2
            sorted_order := sorted, visited_in_sort := visited }

/-- Weight of one `in_degree` entry in the loop-termination measure: visited
entries weigh nothing, an unvisited entry weighs its (clamped) in-degree plus
a constant for the visit itself. -/
def degWeight (visited : List String) (p : String × Int) : Nat :=
  if p.1 ∈ visited then 0 else p.2.toNat + 2

/-- Termination measure of the Kahn loop, used as its fuel. -/
def kahnMeasure (st : KahnState) : Nat :=
  st.queue.length + (st.in_degree.map (degWeight st.visited_in_sort)).sum

/-- `WorkflowEngine._get_topological_order` (lines 61-81): Kahn's algorithm
seeded with all zero-in-degree nodes; if the sort is incomplete, the
remaining node ids are appended in `self.nodes` insertion order
(lines 78-80) instead of failing. -/
def getTopologicalOrder (nodes : List (String × Node))
    (connsFrom connsTo : List (String × List Conn)) : List String :=
  if nodes.isEmpty then []
  else
    let in_degree : List (String × Int) :=
      nodes.map (fun p => (p.1, ((bucketD connsTo p.1).length : Int)))
    let queue := (in_degree.filter (fun p => p.2 = 0)).map Prod.fst
    let st0 : KahnState :=
      { in_degree := in_degree, queue := queue, sorted_order := [], visited_in_sort := [] }
    let st := kahnLoop connsFrom (kahnMeasure st0) st0
    if st.sorted_order.length = nodes.length then st.sorted_order
    else
      nodes.foldl (fun acc p => if p.1 ∈ acc then acc else acc ++ [p.1]) st.sorted_order

/-- `WorkflowEngine.__init__` (lines 17-25): load the workflow, compute the
topological order, and fall back to raw key order when the order is empty but
nodes exist (a branch that is in fact unreachable, see `node_order_keys`). -/
def mkEngine (workflow : Workflow) : Engine :=
  let L := loadNodes workflow.nodes
  let nodes := L.1
  let M := loadConns nodes (L.2.1, L.2.2) workflow.connections
  let node_order := getTopologicalOrder nodes M.1 M.2
  let node_order :=
    if node_order.isEmpty ∧ ¬ nodes.isEmpty then dictKeys nodes else node_order
  { nodes := nodes, connections_from_source := M.1
    connections_to_target := M.2, node_order := node_order }

/-- The transient per-row `evaluated_outputs` map: node id to a map from
output-slot name to boolean signal. -/
abbrev Outputs := List (String × List (String × Bool))

/-- Line 107: `evaluated_outputs = {node_id: {} for node_id in self.nodes}`. -/
def initOutputs (e : Engine) : Outputs :=
  e.nodes.map (fun p => (p.1, ([] : List (String × Bool))))

/-- Line 119: `evaluated_outputs.get(s_id, {}).get(s_key, False)` — the value a
connection delivers; a missing upstream entry defaults to `false`. -/
def deliveredValue (outs : Outputs) (conn : Conn) : Bool :=
  (dlookup ((dlookup outs conn.source_id).getD []) conn.source_output_key).getD false

/-- Lines 115-120: gather `current_node_inputs_values` from the incoming
connections of `node_id` (later connections to the same input key overwrite
earlier ones, as with a Python dict). -/
def gatherInputs (e : Engine) (outs : Outputs) (node_id : String) :
    List (String × Bool) :=
  (bucketD e.connections_to_target node_id).foldl
    (fun m conn => dictInsert m conn.target_input_key (deliveredValue outs conn)) []

/-- `evaluated_outputs[node_id][key] = result`.  The node id is always present
(the map is seeded with every node id at line 107), so the absent-key case is
unreachable and modelled as a no-op. -/
def setOutput (outs : Outputs) (node_id key : String) (b : Bool) : Outputs :=
  match dlookup outs node_id with
  | some m => dictSet outs node_id (dictInsert m key b)
  | none => outs

/-- Line 153: `for i in range(numOutputs): evaluated_outputs[node_id][f"output{i}"] = result`. -/
def writeRuleOutputs (outs : Outputs) (node_id : String) (n : Nat) (result : Bool) :
    Outputs :=
  (List.range n).foldl (fun o i => setOutput o node_id ("output" ++ toString i) result) outs

/-- The Rule branch of `process_event` (lines 122-152): build the evaluation
scope from the condition's identifiers; if any identifier is unresolvable, or
the evaluator raises, the result is `false`. -/
def ruleResult (ev : Evaluator) (row_data : Row) (node_specific_data : NodeDesc) : Bool :=
  let rule_variable_type := pyLower (node_specific_data.variableType.getD "str")
  let code_line_to_eval := pyStrip (node_specific_data.codeLine.getD "False")
  let identifiers_in_code := getVariablesFromCodeLine code_line_to_eval
  match buildScope row_data rule_variable_type identifiers_in_code with
  | none => false
  | some eval_scope => (ev code_line_to_eval eval_scope).getD false

/-- The keys of `ACTION_IMPLEMENTATIONS` (lines 10-12): only `"DISCARD"`. -/
def actionImplementationLabels : List String := ["DISCARD"]

/-- One iteration of the `for node_id in self.node_order` loop of
`process_event` (lines 109-172).  The first component is `some decision` when
the iteration `return`s early (only the DISCARD action does), `none` when the
loop continues.  The engine is threaded through explicitly so that theorems
can state that no branch mutates it; the Python loop writes only to the
per-row `evaluated_outputs`.  The two gate loops with `break` are written as
`List.all` / `List.any`, which compute the same conjunction/disjunction. -/
def stepNode (ev : Evaluator) (row_data : Row) (st : Engine × Outputs)
    (node_id : String) : Option String × (Engine × Outputs) :=
  match dlookup st.1.nodes node_id with
  | none => (none, st)
  | some node =>
    let node_specific_data := node.data
    let node_type := node_specific_data.type
    let node_display_label := node_specific_data.label.getD node_specific_data.type
    let current_node_inputs_values := gatherInputs st.1 st.2 node_id
    if node_type = "Rule" then
      let result := ruleResult ev row_data node_specific_data
      (none,
        (st.1, writeRuleOutputs st.2 node_id (node_specific_data.numOutputs.getD 0) result))
    else if node_type = "AND" then
      let num_gate_inputs := node_specific_data.numInputs.getD 0
      let result := (List.range num_gate_inputs).all
        (fun i => (dlookup current_node_inputs_values ("input" ++ toString i)).getD false)
      (none, (st.1, setOutput st.2 node_id "output" result))
    else if node_type = "OR" then
      let num_gate_inputs := node_specific_data.numInputs.getD 0
      let result := (List.range num_gate_inputs).any
        (fun i => (dlookup current_node_inputs_values ("input" ++ toString i)).getD false)
      (none, (st.1, setOutput st.2 node_id "output" result))
    else if node_type = "Action" then
      if node_display_label ∈ actionImplementationLabels then
        if (dlookup current_node_inputs_values "input0").getD false then
          -- the DISCARD implementation itself is `lambda data_row, val: None`
          if node_display_label = "DISCARD" then (some "DISCARD", st) else (none, st)
        else (none, st)
      else (none, st)
    else (none, st)

/-- The `for node_id in self.node_order` loop: run nodes in order until one
returns a decision. -/
def runNodes (ev : Evaluator) (row_data : Row) :
    List String → Engine × Outputs → Option String × (Engine × Outputs)
  | [], st => (none, st)
  | node_id :: rest, st =>
    match stepNode ev row_data st node_id with
    | (some d, st1) => (some d, st1)
    | (none, st1) => runNodes ev row_data rest st1

/-- `WorkflowEngine.process_event` (lines 106-173), also returning the final
engine/outputs state: `ERROR_WORKFLOW_ORDER` when the order is empty, the
early decision of an Action when one fires, `ACCEPT` otherwise. -/
def processEventFull (ev : Evaluator) (e : Engine) (row_data : Row) :
    String × (Engine × Outputs) :=
  let init := (e, initOutputs e)
  if e.node_order.isEmpty then ("ERROR_WORKFLOW_ORDER", init)
  else
    match runNodes ev row_data e.node_order init with
    | (some d, st) => (d, st)
    | (none, st) => ("ACCEPT", st)

/-- `process_event`'s return value: the per-row decision (the transient
outputs map is discarded). -/
def processEvent (ev : Evaluator) (e : Engine) (row_data : Row) : String :=
  (processEventFull ev e row_data).1

/-- The aggregate statistics of `run_workflow_processing` (lines 260-266,
minus the wall-clock timing, which is outside the model). -/
structure RunStats : Type where
  total_processed : Nat
  accepted : Nat
  discarded : Nat
  errors : Nat
deriving DecidableEq, Repr

/-- The body of the `for i, data_row in enumerate(all_input_data)` loop
(lines 249-257): one `process_event` call on a copy of the row, one augmented
output row, and the `if "ERROR_" in decision / elif DISCARD / elif ACCEPT`
counter updates.  Accumulator: (output rows, error, accepted, discarded). -/
def runRowsStep (ev : Evaluator) (engine : Engine)
    (acc : List Row × Nat × Nat × Nat) (data_row : Row) :
    List Row × Nat × Nat × Nat :=
  let decision := processEvent ev engine data_row
  let output_row := dictInsert data_row "workflow_decision" (.str decision)
  if containsSub "ERROR_" decision then
    (acc.1 ++ [output_row], acc.2.1 + 1, acc.2.2.1, acc.2.2.2)
  else if decision = "DISCARD" then
    (acc.1 ++ [output_row], acc.2.1, acc.2.2.1, acc.2.2.2 + 1)
  else if decision = "ACCEPT" then
    (acc.1 ++ [output_row], acc.2.1, acc.2.2.1 + 1, acc.2.2.2)
  else (acc.1 ++ [output_row], acc.2.1, acc.2.2.1, acc.2.2.2)

/-- The row-processing loop and statistics of `run_workflow_processing`
(lines 247-266): one `process_event` call per row, one augmented output row
per input row, and the decision tally. -/
def runWorkflowRows (ev : Evaluator) (engine : Engine) (all_input_data : List Row) :
    List Row × RunStats :=
  let acc := all_input_data.foldl (runRowsStep ev engine) ([], 0, 0, 0)
  (acc.1,
   { total_processed := all_input_data.length
     accepted := acc.2.2.1, discarded := acc.2.2.2, errors := acc.2.1 })

/-! ### Association-list lemmas -/

theorem dlookup_isSome_iff {α : Type} (m : List (String × α)) (k : String) :
    (dlookup m k).isSome = true ↔ k ∈ dictKeys m := by
  induction m with
  | nil => simp [dlookup, dictKeys]
  | cons p rest ih =>
    by_cases h : p.1 = k
    · simp [dlookup, dictKeys, h]
    · simp [dlookup, dictKeys, h, ih, show ¬ k = p.1 from fun hh => h hh.symm]

theorem dlookup_eq_none_iff {α : Type} (m : List (String × α)) (k : String) :
    dlookup m k = none ↔ k ∉ dictKeys m := by
  rw [← dlookup_isSome_iff]
  cases dlookup m k <;> simp

theorem dlookup_append {α : Type} (m l2 : List (String × α)) (k : String) :
    dlookup (m ++ l2) k =
      match dlookup m k with
      | some v => some v
      | none => dlookup l2 k := by
  induction m with
  | nil => simp [dlookup]
  | cons p rest ih =>
    by_cases h : p.1 = k
    · simp [dlookup, h]
    · simp [dlookup, h, ih]

theorem dictKeys_dictSet {α : Type} (m : List (String × α)) (k : String) (v : α) :
    dictKeys (dictSet m k v) = dictKeys m := by
  induction m with
  | nil => rfl
  | cons p rest ih =>
    by_cases h : p.1 = k
    · simp [dictSet, dictKeys, h]
    · simpa [dictSet, dictKeys, h] using ih

theorem dlookup_dictSet_self {α : Type} (m : List (String × α)) (k : String) (v : α)
    (h : k ∈ dictKeys m) : dlookup (dictSet m k v) k = some v := by
  induction m with
  | nil => simp [dictKeys] at h
  | cons p rest ih =>
    by_cases hp : p.1 = k
    · simp [dictSet, hp, dlookup]
    · simp only [dictKeys, List.map_cons, List.mem_cons] at h
      rcases h with h1 | h1
      · exact absurd h1.symm hp
      · simp [dictSet, hp, dlookup, ih h1]

theorem dlookup_dictSet_ne {α : Type} (m : List (String × α)) (k k' : String) (v : α)
    (h : k' ≠ k) : dlookup (dictSet m k v) k' = dlookup m k' := by
  induction m with
  | nil => rfl
  | cons p rest ih =>
    by_cases hp : p.1 = k
    · simp [dictSet, hp, dlookup, Ne.symm h, show ¬ k = k' from fun hh => h hh.symm]
    · by_cases hp' : p.1 = k'
      · simp [dictSet, hp, dlookup, hp', h]
      · simp [dictSet, hp, dlookup, hp', ih]

theorem dlookup_dictInsert_self {α : Type} (m : List (String × α)) (k : String) (v : α) :
    dlookup (dictInsert m k v) k = some v := by
  unfold dictInsert
  by_cases h : (dlookup m k).isSome = true
  · rw [if_pos h]
    exact dlookup_dictSet_self m k v ((dlookup_isSome_iff m k).mp h)
  · rw [if_neg h, dlookup_append]
    have hn : dlookup m k = none := by
      cases hc : dlookup m k
      · rfl
      · exact absurd (by simp [hc]) h
    simp [hn, dlookup]

theorem dlookup_dictInsert_ne {α : Type} (m : List (String × α)) (k k' : String) (v : α)
    (h : k' ≠ k) : dlookup (dictInsert m k v) k' = dlookup m k' := by
  unfold dictInsert
  by_cases hs : (dlookup m k).isSome = true
  · rw [if_pos hs]; exact dlookup_dictSet_ne m k k' v h
  · rw [if_neg hs, dlookup_append]
    cases hc : dlookup m k' with
    | some w => simp
    | none => simp [dlookup, show ¬ k = k' from fun hh => h hh.symm]

theorem dictKeys_dictInsert_mem {α : Type} (m : List (String × α)) (k : String) (v : α)
    (h : k ∈ dictKeys m) : dictKeys (dictInsert m k v) = dictKeys m := by
  unfold dictInsert
  rw [if_pos ((dlookup_isSome_iff m k).mpr h)]
  exact dictKeys_dictSet m k v

theorem dictKeys_dictInsert_not_mem {α : Type} (m : List (String × α)) (k : String) (v : α)
    (h : k ∉ dictKeys m) : dictKeys (dictInsert m k v) = dictKeys m ++ [k] := by
  unfold dictInsert
  have hn : dlookup m k = none := (dlookup_eq_none_iff m k).mpr h
  rw [if_neg (by simp [hn])]
  simp [dictKeys]

theorem dictKeys_dictInsert_nodup {α : Type} (m : List (String × α)) (k : String) (v : α)
    (h : (dictKeys m).Nodup) : (dictKeys (dictInsert m k v)).Nodup := by
  by_cases hk : k ∈ dictKeys m
  · rw [dictKeys_dictInsert_mem m k v hk]; exact h
  · rw [dictKeys_dictInsert_not_mem m k v hk]
    refine List.Nodup.append h (List.nodup_singleton k) ?_
    intro x hx hx2
    rw [List.mem_singleton.mp hx2] at hx
    exact hk hx

theorem dlookup_map_key_fn {α : Type} (g : String → α) (l : List (String × Node))
    (k : String) :
    dlookup (l.map fun p => (p.1, g p.1)) k =
      if k ∈ dictKeys l then some (g k) else none := by
  induction l with
  | nil => simp [dlookup, dictKeys]
  | cons p rest ih =>
    by_cases h : p.1 = k
    · simp [dlookup, dictKeys, h]
    · have hne : ¬ k = p.1 := fun hh => h hh.symm
      simp only [List.map_cons, dlookup, dictKeys, if_neg h, ih]
      by_cases hm : k ∈ List.map Prod.fst rest
      · simp [dictKeys, hm, List.mem_cons, hne]
      · simp [dictKeys, hm, List.mem_cons, hne]

/-! ### `posOf` lemmas -/

theorem posOf_lt_length (l : List String) (y : String) (h : y ∈ l) :
    posOf l y < l.length := by
  induction l with
  | nil => cases h
  | cons x rest ih =>
    by_cases hx : x = y
    · simp [posOf, hx]
    · rcases List.mem_cons.mp h with h1 | h1
      · exact absurd h1.symm hx
      · simpa [posOf, hx] using ih h1

theorem posOf_append_left (l l2 : List String) (y : String) (h : y ∈ l) :
    posOf (l ++ l2) y = posOf l y := by
  induction l with
  | nil => cases h
  | cons x rest ih =>
    by_cases hx : x = y
    · simp [posOf, hx]
    · rcases List.mem_cons.mp h with h1 | h1
      · exact absurd h1.symm hx
      · simp [posOf, hx, ih h1]

theorem posOf_append_self (l : List String) (u : String) (h : u ∉ l) :
    posOf (l ++ [u]) u = l.length := by
  induction l with
  | nil => simp [posOf]
  | cons x rest ih =>
    have hx : x ≠ u := fun hh => h (by simp [hh])
    simp [posOf, hx, ih (fun hh => h (List.mem_cons_of_mem x hh))]

/-! ### Shape lemmas for the dispatcher -/

theorem stepNode_engine (ev : Evaluator) (row_data : Row) (st : Engine × Outputs)
    (node_id : String) : (stepNode ev row_data st node_id).2.1 = st.1 := by
  unfold stepNode
  cases dlookup st.1.nodes node_id with
  | none => rfl
  | some node =>
    simp only
    split
    · rfl
    · split
      · rfl
      · split
        · rfl
        · split
          · split
            · split
              · split
                · rfl
                · rfl
              · rfl
            · rfl
          · rfl

theorem stepNode_decision (ev : Evaluator) (row_data : Row) (st : Engine × Outputs)
    (node_id : String) :
    (stepNode ev row_data st node_id).1 = none ∨
      (stepNode ev row_data st node_id).1 = some "DISCARD" := by
  unfold stepNode
  cases dlookup st.1.nodes node_id with
  | none => exact Or.inl rfl
  | some node =>
    simp only
    split
    · exact Or.inl rfl
    · split
      · exact Or.inl rfl
      · split
        · exact Or.inl rfl
        · split
          · split
            · split
              · split
                · exact Or.inr rfl
                · exact Or.inl rfl
              · exact Or.inl rfl
            · exact Or.inl rfl
          · exact Or.inl rfl

theorem runNodes_engine (ev : Evaluator) (row_data : Row) (order : List String)
    (st : Engine × Outputs) : (runNodes ev row_data order st).2.1 = st.1 := by
  induction order generalizing st with
  | nil => rfl
  | cons nid rest ih =>
    unfold runNodes
    cases hs : stepNode ev row_data st nid with
    | mk od st1 =>
      have he : st1.1 = st.1 := by
        have := stepNode_engine ev row_data st nid
        rw [hs] at this
        exact this
      cases od with
      | none => simpa [he] using ih st1
      | some d => simpa using he

theorem runNodes_decision (ev : Evaluator) (row_data : Row) (order : List String)
    (st : Engine × Outputs) :
    (runNodes ev row_data order st).1 = none ∨
      (runNodes ev row_data order st).1 = some "DISCARD" := by
  induction order generalizing st with
  | nil => exact Or.inl rfl
  | cons nid rest ih =>
    unfold runNodes
    cases hs : stepNode ev row_data st nid with
    | mk od st1 =>
      cases od with
      | none => exact ih st1
      | some d =>
        have h2 := stepNode_decision ev row_data st nid
        rw [hs] at h2
        rcases h2 with h | h
        · cases h
        · simp only [Option.some.injEq] at h
          subst h
          exact Or.inr rfl

/-- `process_event` can only produce these three decisions. -/
theorem processEvent_cases (ev : Evaluator) (e : Engine) (row_data : Row) :
    processEvent ev e row_data = "ERROR_WORKFLOW_ORDER" ∨
      processEvent ev e row_data = "ACCEPT" ∨
      processEvent ev e row_data = "DISCARD" := by
  unfold processEvent processEventFull
  by_cases h : e.node_order.isEmpty
  · simp [h]
  · simp only [if_neg h]
    cases hr : runNodes ev row_data e.node_order (e, initOutputs e) with
    | mk od st =>
      cases od with
      | none => simp
      | some d =>
        have := runNodes_decision ev row_data e.node_order (e, initOutputs e)
        rw [hr] at this
        rcases this with hh | hh
        · cases hh
        · simp only [Option.some.injEq] at hh
          simp [hh]

/-! ### Decision-tally lemmas for the driver -/

/-- Contribution of one decision to the error counter. -/
def tallyErr (d : String) : Nat := if containsSub "ERROR_" d then 1 else 0

/-- Contribution of one decision to the discarded counter (the `elif`). -/
def tallyDis (d : String) : Nat :=
  if ¬ containsSub "ERROR_" d = true ∧ d = "DISCARD" then 1 else 0

/-- Contribution of one decision to the accepted counter (the second `elif`). -/
def tallyAcc (d : String) : Nat :=
  if ¬ containsSub "ERROR_" d = true ∧ ¬ d = "DISCARD" ∧ d = "ACCEPT" then 1 else 0

theorem runRowsStep_spec (ev : Evaluator) (engine : Engine)
    (acc : List Row × Nat × Nat × Nat) (data_row : Row) :
    runRowsStep ev engine acc data_row =
      (acc.1 ++ [dictInsert data_row "workflow_decision"
          (.str (processEvent ev engine data_row))],
       acc.2.1 + tallyErr (processEvent ev engine data_row),
       acc.2.2.1 + tallyAcc (processEvent ev engine data_row),
       acc.2.2.2 + tallyDis (processEvent ev engine data_row)) := by
  unfold runRowsStep tallyErr tallyAcc tallyDis
  by_cases h1 : containsSub "ERROR_" (processEvent ev engine data_row) = true
  · simp [h1]
  · by_cases h2 : processEvent ev engine data_row = "DISCARD"
    · simp [h1, h2, show containsSub "ERROR_" "DISCARD" = false from by decide]
    · by_cases h3 : processEvent ev engine data_row = "ACCEPT"
      · simp [h1, h2, h3, show containsSub "ERROR_" "ACCEPT" = false from by decide]
      · simp [h1, h2, h3]

theorem runRows_fold (ev : Evaluator) (engine : Engine) (rows : List Row)
    (acc : List Row × Nat × Nat × Nat) :
    rows.foldl (runRowsStep ev engine) acc =
      (acc.1 ++ rows.map
          (fun r => dictInsert r "workflow_decision" (.str (processEvent ev engine r))),
       acc.2.1 + (rows.map (fun r => tallyErr (processEvent ev engine r))).sum,
       acc.2.2.1 + (rows.map (fun r => tallyAcc (processEvent ev engine r))).sum,
       acc.2.2.2 + (rows.map (fun r => tallyDis (processEvent ev engine r))).sum) := by
  induction rows generalizing acc with
  | nil => simp
  | cons r rest ih =>
    simp only [List.foldl_cons, List.map_cons, List.sum_cons, ih, runRowsStep_spec]
    refine Prod.ext ?_ (Prod.ext ?_ (Prod.ext ?_ ?_)) <;> simp <;> omega

theorem tally_split (d : String)
    (hd : d = "ERROR_WORKFLOW_ORDER" ∨ d = "ACCEPT" ∨ d = "DISCARD") :
    tallyErr d + tallyAcc d + tallyDis d = 1 ∧
      tallyAcc d = (if d = "ACCEPT" then 1 else 0) ∧
      tallyDis d = (if d = "DISCARD" then 1 else 0) := by
  rcases hd with h | h | h <;> subst h <;> refine ⟨by decide, by decide, by decide⟩

theorem sum_tallyErr (ds : List String) :
    (ds.map tallyErr).sum = (ds.filter (fun d => containsSub "ERROR_" d)).length := by
  induction ds with
  | nil => rfl
  | cons d rest ih =>
    by_cases h : containsSub "ERROR_" d = true
    · simp [tallyErr, h, ih, Nat.add_comm]
    · simp [tallyErr, h, ih]

theorem sum_tallyAcc (ds : List String)
    (h : ∀ d ∈ ds, d = "ERROR_WORKFLOW_ORDER" ∨ d = "ACCEPT" ∨ d = "DISCARD") :
    (ds.map tallyAcc).sum = ds.count "ACCEPT" := by
  induction ds with
  | nil => rfl
  | cons d rest ih =>
    have hd := h d (List.mem_cons_self d rest)
    have hr := ih fun x hx => h x (List.mem_cons_of_mem d hx)
    have hsp := (tally_split d hd).2.1
    by_cases hA : d = "ACCEPT"
    · subst hA
      simp [List.count_cons, hsp, hr, Nat.add_comm]
    · simp [List.count_cons, hsp, hr, hA, show ("ACCEPT" == d) = false by
        simpa [beq_iff_eq] using fun hh => hA hh.symm]

theorem sum_tallyDis (ds : List String)
    (h : ∀ d ∈ ds, d = "ERROR_WORKFLOW_ORDER" ∨ d = "ACCEPT" ∨ d = "DISCARD") :
    (ds.map tallyDis).sum = ds.count "DISCARD" := by
  induction ds with
  | nil => rfl
  | cons d rest ih =>
    have hd := h d (List.mem_cons_self d rest)
    have hr := ih fun x hx => h x (List.mem_cons_of_mem d hx)
    have hsp := (tally_split d hd).2.2
    by_cases hD : d = "DISCARD"
    · subst hD
      simp [List.count_cons, hsp, hr, Nat.add_comm]
    · simp [List.count_cons, hsp, hr, hD, show ("DISCARD" == d) = false by
        simpa [beq_iff_eq] using fun hh => hD hh.symm]

theorem sum_tally_total (ds : List String)
    (h : ∀ d ∈ ds, d = "ERROR_WORKFLOW_ORDER" ∨ d = "ACCEPT" ∨ d = "DISCARD") :
    (ds.map tallyAcc).sum + (ds.map tallyDis).sum + (ds.map tallyErr).sum = ds.length := by
  induction ds with
  | nil => rfl
  | cons d rest ih =>
    have hd := h d (List.mem_cons_self d rest)
    have hr := ih fun x hx => h x (List.mem_cons_of_mem d hx)
    have hsp := (tally_split d hd).1
    simp only [List.map_cons, List.sum_cons, List.length_cons]
    omega

/-! ### Engine-construction shape lemmas -/

theorem mkEngine_nodes (w : Workflow) : (mkEngine w).nodes = (loadNodes w.nodes).1 := rfl

theorem mkEngine_node_order (w : Workflow) :
    (mkEngine w).node_order =
      (let nodes := (loadNodes w.nodes).1
       let M := loadConns nodes ((loadNodes w.nodes).2.1, (loadNodes w.nodes).2.2)
         w.connections
       let o := getTopologicalOrder nodes M.1 M.2
       if o.isEmpty ∧ ¬ nodes.isEmpty then dictKeys nodes else o) := rfl

theorem order_choice_ne_nil (nodes : List (String × Node)) (o : List String)
    (h : nodes ≠ []) :
    (if o.isEmpty ∧ ¬ nodes.isEmpty then dictKeys nodes else o) ≠ [] := by
  have hne : ¬ nodes.isEmpty := by
    simpa [List.isEmpty_iff] using h
  by_cases ho : o.isEmpty
  · rw [if_pos ⟨ho, hne⟩]
    simpa [dictKeys] using h
  · rw [if_neg (fun hc => ho hc.1)]
    intro hnil
    exact ho (by simp [hnil])

theorem mkEngine_order_ne_nil (w : Workflow) (h : (mkEngine w).nodes ≠ []) :
    (mkEngine w).node_order ≠ [] := by
  rw [mkEngine_node_order]
  exact order_choice_ne_nil _ _ (by rw [← mkEngine_nodes]; exact h)

theorem getTopologicalOrder_nil (cf ct : List (String × List Conn)) :
    getTopologicalOrder [] cf ct = [] := rfl

theorem mkEngine_order_of_nodes_nil (w : Workflow) (h : (mkEngine w).nodes = []) :
    (mkEngine w).node_order = [] := by
  rw [mkEngine_node_order]
  rw [mkEngine_nodes] at h
  simp only [h]
  rw [getTopologicalOrder_nil]
  simp

/-- With a non-empty evaluation order, `process_event` returns `"ACCEPT"` or
`"DISCARD"` — never the error tag. -/
theorem processEvent_of_order_nonempty (ev : Evaluator) (e : Engine) (row_data : Row)
    (h : e.node_order ≠ []) :
    processEvent ev e row_data = "ACCEPT" ∨ processEvent ev e row_data = "DISCARD" := by
  unfold processEvent processEventFull
  have hne : ¬ e.node_order.isEmpty := by simpa [List.isEmpty_iff] using h
  simp only [if_neg hne]
  cases hr : runNodes ev row_data e.node_order (e, initOutputs e) with
  | mk od st =>
    cases od with
    | none => simp
    | some d =>
      have h2 := runNodes_decision ev row_data e.node_order (e, initOutputs e)
      rw [hr] at h2
      rcases h2 with hh | hh
      · cases hh
      · simp only [Option.some.injEq] at hh
        subst hh
        simp

/-- With an empty evaluation order, `process_event` returns the error tag. -/
theorem processEvent_of_order_nil (ev : Evaluator) (e : Engine) (row_data : Row)
    (h : e.node_order = []) : processEvent ev e row_data = "ERROR_WORKFLOW_ORDER" := by
  unfold processEvent processEventFull
  simp [h]

/-! ### Concrete evaluators and workflows used by witnesses -/

/-- An evaluator that models every `eval` call succeeding with a truthy result. -/
def evalTrue : Evaluator := fun _ _ => some true

/-- An evaluator that models every `eval` call raising an exception. -/
def evalNone : Evaluator := fun _ _ => none

/-- A zero-input AND gate feeding a DISCARD action. -/
def sampleGateWorkflow : Workflow :=
  { nodes :=
      [ { id := "X", type := "AND", label := none, numInputs := some 0,
          numOutputs := none, variableType := none, codeLine := none },
        { id := "D", type := "Action", label := some "DISCARD", numInputs := some 1,
          numOutputs := none, variableType := none, codeLine := none } ],
    connections :=
      [ { id := "c1", sourceNodeId := "X", sourceOutputKey := "output",
          targetNodeId := "D", targetInputKey := "input0" } ] }

/-! ### Claim theorems: C8, C9, C10 -/

/-- Claim C9: processing a row never mutates the loaded graph or the
evaluation order — the node map, both connection adjacency indexes and the
evaluation-order sequence after `process_event` equal their values before the
call, and the decision is the first component of the full state, the
transient per-row outputs map being discarded. -/
theorem process_event_preserves_engine (ev : Evaluator) (e : Engine) (row_data : Row) :
    (processEventFull ev e row_data).2.1.nodes = e.nodes ∧
    (processEventFull ev e row_data).2.1.connections_from_source
        = e.connections_from_source ∧
    (processEventFull ev e row_data).2.1.connections_to_target
        = e.connections_to_target ∧
    (processEventFull ev e row_data).2.1.node_order = e.node_order ∧
    processEvent ev e row_data = (processEventFull ev e row_data).1 := by
  have hmain : (processEventFull ev e row_data).2.1 = e := by
    unfold processEventFull
    by_cases h : e.node_order.isEmpty
    · simp [h]
    · simp only [if_neg h]
      cases hr : runNodes ev row_data e.node_order (e, initOutputs e) with
      | mk od st =>
        have h2 := runNodes_engine ev row_data e.node_order (e, initOutputs e)
        rw [hr] at h2
        cases od <;> simpa using h2
  exact ⟨by rw [hmain], by rw [hmain], by rw [hmain], by rw [hmain], rfl⟩

/-- Claim C8: the row-processing driver calls the dispatcher exactly once per
row (the output-row list is the map of the per-row decision-augmentation over
the input rows), reports `total_processed` equal to the number of input rows,
tallies every decision into the accepted/discarded/errors counters, and the
three counters sum to the number of rows. -/
theorem run_workflow_rows_driver (ev : Evaluator) (e : Engine) (rows : List Row) :
    (runWorkflowRows ev e rows).1 =
        rows.map (fun r =>
          dictInsert r "workflow_decision" (.str (processEvent ev e r))) ∧
    (runWorkflowRows ev e rows).2.total_processed = rows.length ∧
    (runWorkflowRows ev e rows).2.errors =
        ((rows.map (processEvent ev e)).filter (fun d => containsSub "ERROR_" d)).length ∧
    (runWorkflowRows ev e rows).2.accepted =
        (rows.map (processEvent ev e)).count "ACCEPT" ∧
    (runWorkflowRows ev e rows).2.discarded =
        (rows.map (processEvent ev e)).count "DISCARD" ∧
    (runWorkflowRows ev e rows).2.accepted + (runWorkflowRows ev e rows).2.discarded +
        (runWorkflowRows ev e rows).2.errors = rows.length := by
  have hfold := runRows_fold ev e rows ([], 0, 0, 0)
  have e1 : (runWorkflowRows ev e rows).1
      = (rows.foldl (runRowsStep ev e) ([], 0, 0, 0)).1 := rfl
  have e2 : (runWorkflowRows ev e rows).2.errors
      = (rows.foldl (runRowsStep ev e) ([], 0, 0, 0)).2.1 := rfl
  have e3 : (runWorkflowRows ev e rows).2.accepted
      = (rows.foldl (runRowsStep ev e) ([], 0, 0, 0)).2.2.1 := rfl
  have e4 : (runWorkflowRows ev e rows).2.discarded
      = (rows.foldl (runRowsStep ev e) ([], 0, 0, 0)).2.2.2 := rfl
  have e5 : (runWorkflowRows ev e rows).2.total_processed = rows.length := rfl
  have hcases : ∀ d ∈ rows.map (processEvent ev e),
      d = "ERROR_WORKFLOW_ORDER" ∨ d = "ACCEPT" ∨ d = "DISCARD" := by
    intro d hd
    rcases List.mem_map.mp hd with ⟨r, hr, hdr⟩
    subst hdr
    exact processEvent_cases ev e r
  have hmapErr : rows.map (fun r => tallyErr (processEvent ev e r))
      = (rows.map (processEvent ev e)).map tallyErr := by
    rw [List.map_map]; rfl
  have hmapAcc : rows.map (fun r => tallyAcc (processEvent ev e r))
      = (rows.map (processEvent ev e)).map tallyAcc := by
    rw [List.map_map]; rfl
  have hmapDis : rows.map (fun r => tallyDis (processEvent ev e r))
      = (rows.map (processEvent ev e)).map tallyDis := by
    rw [List.map_map]; rfl
  refine ⟨?_, e5, ?_, ?_, ?_, ?_⟩
  · rw [e1, hfold]; simp
  · rw [e2, hfold]
    simp only [Nat.zero_add]
    rw [hmapErr, sum_tallyErr]
  · rw [e3, hfold]
    simp only [Nat.zero_add]
    rw [hmapAcc, sum_tallyAcc _ hcases]
  · rw [e4, hfold]
    simp only [Nat.zero_add]
    rw [hmapDis, sum_tallyDis _ hcases]
  · rw [e3, e4, e2, hfold]
    simp only [hmapAcc, hmapDis, hmapErr, Nat.zero_add]
    have := sum_tally_total (rows.map (processEvent ev e)) hcases
    simpa [List.length_map] using this

/-- Claim C10: for an engine with a non-empty node set the evaluation order is
non-empty and `process_event` returns `"ACCEPT"` or `"DISCARD"` for every row;
`"ERROR_WORKFLOW_ORDER"` is returned exactly when the engine has no nodes, and
a run over a successfully loaded (non-empty) workflow records an error count
of zero. -/
theorem process_event_decisions (w : Workflow) (ev : Evaluator) (row_data : Row)
    (rows : List Row) :
    ((mkEngine w).nodes ≠ [] →
      processEvent ev (mkEngine w) row_data = "ACCEPT" ∨
        processEvent ev (mkEngine w) row_data = "DISCARD") ∧
    ((mkEngine w).nodes = [] →
      processEvent ev (mkEngine w) row_data = "ERROR_WORKFLOW_ORDER") ∧
    ((mkEngine w).nodes ≠ [] →
      (runWorkflowRows ev (mkEngine w) rows).2.errors = 0) := by
  refine ⟨?_, ?_, ?_⟩
  · intro h
    exact processEvent_of_order_nonempty ev (mkEngine w) row_data
      (mkEngine_order_ne_nil w h)
  · intro h
    exact processEvent_of_order_nil ev (mkEngine w) row_data
      (mkEngine_order_of_nodes_nil w h)
  · intro h
    have hfold := runRows_fold ev (mkEngine w) rows ([], 0, 0, 0)
    have e2 : (runWorkflowRows ev (mkEngine w) rows).2.errors
        = (rows.foldl (runRowsStep ev (mkEngine w)) ([], 0, 0, 0)).2.1 := rfl
    rw [e2, hfold]
    simp only [Nat.zero_add]
    apply List.sum_eq_zero
    intro x hx
    rcases List.mem_map.mp hx with ⟨r, hr, hxr⟩
    subst hxr
    rcases processEvent_of_order_nonempty ev (mkEngine w) r
        (mkEngine_order_ne_nil w h) with hd | hd <;>
      rw [hd] <;> decide

/-- Witness for C10 at a concrete two-node workflow. -/
theorem process_event_decisions_witness :
    (mkEngine sampleGateWorkflow).nodes ≠ [] ∧
      (processEvent evalTrue (mkEngine sampleGateWorkflow) [] = "ACCEPT" ∨
        processEvent evalTrue (mkEngine sampleGateWorkflow) [] = "DISCARD") :=
  ⟨by decide, (process_event_decisions sampleGateWorkflow evalTrue [] []).1 (by decide)⟩

/-! ### Dispatcher lemmas for C4, C5, C6 -/

theorem runNodes_append (ev : Evaluator) (row_data : Row) (l1 l2 : List String)
    (st : Engine × Outputs) :
    runNodes ev row_data (l1 ++ l2) st =
      match runNodes ev row_data l1 st with
      | (some d, st1) => (some d, st1)
      | (none, st1) => runNodes ev row_data l2 st1 := by
  induction l1 generalizing st with
  | nil => simp [runNodes]
  | cons nid rest ih =>
    simp only [List.cons_append, runNodes]
    cases hs : stepNode ev row_data st nid with
    | mk od st1 => cases od <;> simp [ih]

theorem setOutput_other (outs : Outputs) (node_id key : String) (b : Bool)
    (s : String) (h : s ≠ node_id) :
    dlookup (setOutput outs node_id key b) s = dlookup outs s := by
  unfold setOutput
  cases dlookup outs node_id with
  | none => rfl
  | some m => exact dlookup_dictSet_ne outs node_id s _ h

theorem writeRuleOutputs_other (outs : Outputs) (node_id : String) (n : Nat) (r : Bool)
    (s : String) (h : s ≠ node_id) :
    dlookup (writeRuleOutputs outs node_id n r) s = dlookup outs s := by
  unfold writeRuleOutputs
  induction List.range n generalizing outs with
  | nil => rfl
  | cons i rest ih =>
    simp only [List.foldl_cons]
    rw [ih, setOutput_other _ _ _ _ _ h]

/-- Claim C4: a DISCARD-labeled Action node that receives `true` on its
`input0` slot terminates the row immediately — the decision is `"DISCARD"`
and the final per-row state is exactly the state in which the action fired,
untouched by any node later in the evaluation order; and when no action fires
during the whole pass, the decision is the default `"ACCEPT"`. -/
theorem discard_action_semantics (ev : Evaluator) (e : Engine) (row_data : Row) :
    (∀ (l1 l2 : List String) (a : String) (node : Node) (o1 : Engine × Outputs),
      e.node_order = l1 ++ a :: l2 →
      dlookup e.nodes a = some node →
      node.data.type = "Action" →
      node.data.label.getD node.data.type = "DISCARD" →
      runNodes ev row_data l1 (e, initOutputs e) = (none, o1) →
      (dlookup (gatherInputs o1.1 o1.2 a) "input0").getD false = true →
      processEvent ev e row_data = "DISCARD" ∧
        processEventFull ev e row_data = ("DISCARD", o1)) ∧
    (∀ stF : Engine × Outputs,
      e.node_order ≠ [] →
      runNodes ev row_data e.node_order (e, initOutputs e) = (none, stF) →
      processEvent ev e row_data = "ACCEPT") := by
  constructor
  · intro l1 l2 a node o1 horder hnode hty hlab hrun hinput
    have ho1e : o1.1 = e := by
      have h2 := runNodes_engine ev row_data l1 (e, initOutputs e)
      rw [hrun] at h2
      exact h2
    have hstep : stepNode ev row_data o1 a = (some "DISCARD", o1) := by
      unfold stepNode
      rw [ho1e, hnode]
      rw [hty] at hlab
      rw [ho1e] at hinput
      simp [hty, hlab, actionImplementationLabels, hinput]
    have hne : ¬ e.node_order.isEmpty := by
      rw [horder]
      simp
    have hfull : processEventFull ev e row_data = ("DISCARD", o1) := by
      unfold processEventFull
      rw [if_neg hne, horder, runNodes_append, hrun]
      simp only [runNodes, hstep]
    exact ⟨by unfold processEvent; rw [hfull], hfull⟩
  · intro stF hne hrun
    have hne2 : ¬ e.node_order.isEmpty = true := by
      simpa [List.isEmpty_iff] using hne
    unfold processEvent processEventFull
    rw [if_neg hne2, hrun]

/-- A Source node feeding a DISCARD action (used to exercise the missing
Source dispatcher branch and the no-action-fired default). -/
def sampleSourceWorkflow : Workflow :=
  { nodes :=
      [ { id := "S", type := "Source", label := some "CSV", numInputs := none,
          numOutputs := some 1, variableType := none, codeLine := none },
        { id := "D", type := "Action", label := some "DISCARD", numInputs := some 1,
          numOutputs := none, variableType := none, codeLine := none } ],
    connections :=
      [ { id := "c1", sourceNodeId := "S", sourceOutputKey := "output0",
          targetNodeId := "D", targetInputKey := "input0" } ] }

/-- The loaded Action node of `sampleGateWorkflow`. -/
def sampleGateNodeD : Node :=
  { id := "D", type := "Action", label := "DISCARD", num_inputs := 1, num_outputs := 0
    data := { id := "D", type := "Action", label := some "DISCARD", numInputs := some 1,
              numOutputs := none, variableType := none, codeLine := none } }

/-- Witness for C4: the DISCARD firing on the gate workflow, the ACCEPT
default on the source workflow. -/
theorem discard_action_semantics_witness :
    processEvent evalTrue (mkEngine sampleGateWorkflow) [] = "DISCARD" ∧
      processEvent evalTrue (mkEngine sampleSourceWorkflow) [] = "ACCEPT" := by
  constructor
  · exact ((discard_action_semantics evalTrue (mkEngine sampleGateWorkflow) []).1
      ["X"] [] "D" sampleGateNodeD
      (runNodes evalTrue [] ["X"]
        (mkEngine sampleGateWorkflow, initOutputs (mkEngine sampleGateWorkflow))).2
      (by decide) (by decide) (by decide) (by decide) rfl (by decide)).1
  · exact (discard_action_semantics evalTrue (mkEngine sampleSourceWorkflow) []).2
      (runNodes evalTrue [] (mkEngine sampleSourceWorkflow).node_order
        (mkEngine sampleSourceWorkflow, initOutputs (mkEngine sampleSourceWorkflow))).2
      (by decide) rfl

theorem gatherInputs_no_conn_aux (outs : Outputs) (conns : List Conn)
    (acc : List (String × Bool)) (key : String) (hacc : dlookup acc key = none)
    (h : ∀ c ∈ conns, c.target_input_key ≠ key) :
    dlookup (conns.foldl
      (fun m conn => dictInsert m conn.target_input_key (deliveredValue outs conn)) acc)
      key = none := by
  induction conns generalizing acc with
  | nil => exact hacc
  | cons c rest ih =>
    simp only [List.foldl_cons]
    refine ih _ ?_ (fun x hx => h x (List.mem_cons_of_mem c hx))
    rw [dlookup_dictInsert_ne _ _ _ _ (fun hh => h c (List.mem_cons_self c rest) hh.symm)]
    exact hacc

theorem gatherInputs_no_conn (e : Engine) (outs : Outputs) (node_id key : String)
    (h : ∀ c ∈ bucketD e.connections_to_target node_id, c.target_input_key ≠ key) :
    dlookup (gatherInputs e outs node_id) key = none :=
  gatherInputs_no_conn_aux outs _ [] key rfl h

/-- Claim C5: an AND gate with zero declared inputs outputs `true`, an OR gate
with zero declared inputs outputs `false`; in general the gates compute the
conjunction/disjunction of their declared input slots, where a slot with no
incoming connection reads as `false` and a connection whose upstream output
was never produced delivers `false` — never an error. -/
theorem gate_semantics (ev : Evaluator) (row_data : Row) (st : Engine × Outputs)
    (node_id : String) (node : Node) (h : dlookup st.1.nodes node_id = some node) :
    (node.data.type = "AND" → node.data.numInputs.getD 0 = 0 →
      stepNode ev row_data st node_id =
        (none, (st.1, setOutput st.2 node_id "output" true))) ∧
    (node.data.type = "OR" → node.data.numInputs.getD 0 = 0 →
      stepNode ev row_data st node_id =
        (none, (st.1, setOutput st.2 node_id "output" false))) ∧
    (node.data.type = "AND" →
      stepNode ev row_data st node_id =
        (none, (st.1, setOutput st.2 node_id "output"
          ((List.range (node.data.numInputs.getD 0)).all (fun i =>
            (dlookup (gatherInputs st.1 st.2 node_id)
              ("input" ++ toString i)).getD false))))) ∧
    (node.data.type = "OR" →
      stepNode ev row_data st node_id =
        (none, (st.1, setOutput st.2 node_id "output"
          ((List.range (node.data.numInputs.getD 0)).any (fun i =>
            (dlookup (gatherInputs st.1 st.2 node_id)
              ("input" ++ toString i)).getD false))))) ∧
    (∀ key : String,
      (∀ c ∈ bucketD st.1.connections_to_target node_id, c.target_input_key ≠ key) →
      (dlookup (gatherInputs st.1 st.2 node_id) key).getD false = false) ∧
    (∀ conn : Conn,
      dlookup ((dlookup st.2 conn.source_id).getD []) conn.source_output_key = none →
      deliveredValue st.2 conn = false) := by
  refine ⟨?_, ?_, ?_, ?_, ?_, ?_⟩
  · intro hty h0
    unfold stepNode
    rw [h]
    simp [hty, h0]
  · intro hty h0
    unfold stepNode
    rw [h]
    simp [hty, h0]
  · intro hty
    unfold stepNode
    rw [h]
    simp [hty]
  · intro hty
    unfold stepNode
    rw [h]
    simp [hty]
  · intro key hk
    rw [gatherInputs_no_conn st.1 st.2 node_id key hk]
    rfl
  · intro conn hc
    unfold deliveredValue
    rw [hc]
    rfl

/-- Two isolated zero-input gates. -/
def sampleGatesWorkflow : Workflow :=
  { nodes :=
      [ { id := "X", type := "AND", label := none, numInputs := some 0,
          numOutputs := none, variableType := none, codeLine := none },
        { id := "O", type := "OR", label := none, numInputs := some 0,
          numOutputs := none, variableType := none, codeLine := none } ],
    connections := [] }

/-- The loaded AND node of `sampleGatesWorkflow`. -/
def sampleGatesNodeX : Node :=
  { id := "X", type := "AND", label := "AND", num_inputs := 0, num_outputs := 0
    data := { id := "X", type := "AND", label := none, numInputs := some 0,
              numOutputs := none, variableType := none, codeLine := none } }

/-- The loaded OR node of `sampleGatesWorkflow`. -/
def sampleGatesNodeO : Node :=
  { id := "O", type := "OR", label := none.getD "OR", num_inputs := 0, num_outputs := 0
    data := { id := "O", type := "OR", label := none, numInputs := some 0,
              numOutputs := none, variableType := none, codeLine := none } }

/-- Witness for C5 at the concrete gates workflow: AND-0 writes `true`, OR-0
writes `false`, a connectionless slot reads `false`, a dangling upstream
delivers `false`. -/
theorem gate_semantics_witness :
    stepNode evalTrue [] (mkEngine sampleGatesWorkflow, initOutputs (mkEngine sampleGatesWorkflow)) "X"
        = (none, (mkEngine sampleGatesWorkflow,
            setOutput (initOutputs (mkEngine sampleGatesWorkflow)) "X" "output" true)) ∧
    stepNode evalTrue [] (mkEngine sampleGatesWorkflow, initOutputs (mkEngine sampleGatesWorkflow)) "O"
        = (none, (mkEngine sampleGatesWorkflow,
            setOutput (initOutputs (mkEngine sampleGatesWorkflow)) "O" "output" false)) ∧
    (dlookup (gatherInputs (mkEngine sampleGatesWorkflow)
        (initOutputs (mkEngine sampleGatesWorkflow)) "X") "input0").getD false = false ∧
    deliveredValue (initOutputs (mkEngine sampleGatesWorkflow))
        { source_id := "Z", source_output_key := "output", target_id := "X",
          target_input_key := "input0", id := "zz" } = false := by
  refine ⟨?_, ?_, ?_, ?_⟩
  · exact (gate_semantics evalTrue []
      (mkEngine sampleGatesWorkflow, initOutputs (mkEngine sampleGatesWorkflow)) "X"
      sampleGatesNodeX (by decide)).1 (by decide) (by decide)
  · exact (gate_semantics evalTrue []
      (mkEngine sampleGatesWorkflow, initOutputs (mkEngine sampleGatesWorkflow)) "O"
      sampleGatesNodeO (by decide)).2.1 (by decide) (by decide)
  · exact (gate_semantics evalTrue []
      (mkEngine sampleGatesWorkflow, initOutputs (mkEngine sampleGatesWorkflow)) "X"
      sampleGatesNodeX (by decide)).2.2.2.2.1 "input0" (by decide)
  · exact (gate_semantics evalTrue []
      (mkEngine sampleGatesWorkflow, initOutputs (mkEngine sampleGatesWorkflow)) "X"
      sampleGatesNodeX (by decide)).2.2.2.2.2 _ (by decide)

/-- Claim C6: when a Rule node's condition cannot be evaluated — the scope
build fails (coercion failure or unresolvable identifier) or the evaluator
raises — the rule writes `false` to every declared output slot, no early
return occurs, and the node loop simply continues with the remaining nodes
of the evaluation order. -/
theorem rule_fault_is_false (ev : Evaluator) (row_data : Row) (st : Engine × Outputs)
    (node_id : String) (node : Node) (h : dlookup st.1.nodes node_id = some node)
    (hty : node.data.type = "Rule")
    (hfault :
      buildScope row_data (pyLower (node.data.variableType.getD "str"))
          (getVariablesFromCodeLine (pyStrip (node.data.codeLine.getD "False"))) = none ∨
      ∃ sc, buildScope row_data (pyLower (node.data.variableType.getD "str"))
          (getVariablesFromCodeLine (pyStrip (node.data.codeLine.getD "False"))) = some sc ∧
        ev (pyStrip (node.data.codeLine.getD "False")) sc = none) :
    stepNode ev row_data st node_id =
      (none, (st.1, writeRuleOutputs st.2 node_id (node.data.numOutputs.getD 0) false)) ∧
    ∀ rest : List String,
      runNodes ev row_data (node_id :: rest) st =
        runNodes ev row_data rest
          (st.1, writeRuleOutputs st.2 node_id (node.data.numOutputs.getD 0) false) := by
  have hres : ruleResult ev row_data node.data = false := by
    unfold ruleResult
    dsimp only
    rcases hfault with hf | ⟨sc, hsc, hev⟩
    · rw [hf]
    · rw [hsc]
      simp [hev]
  have hstep : stepNode ev row_data st node_id =
      (none, (st.1, writeRuleOutputs st.2 node_id (node.data.numOutputs.getD 0) false)) := by
    unfold stepNode
    rw [h]
    simp [hty, hres]
  refine ⟨hstep, fun rest => ?_⟩
  simp only [runNodes, hstep]

/-- A single Rule node whose condition defaults to `"False"`. -/
def sampleRuleWorkflow : Workflow :=
  { nodes :=
      [ { id := "R", type := "Rule", label := some "rule", numInputs := none,
          numOutputs := some 1, variableType := none, codeLine := none } ],
    connections := [] }

/-- The loaded Rule node of `sampleRuleWorkflow`. -/
def sampleRuleNodeR : Node :=
  { id := "R", type := "Rule", label := "rule", num_inputs := 0, num_outputs := 1
    data := { id := "R", type := "Rule", label := some "rule", numInputs := none,
              numOutputs := some 1, variableType := none, codeLine := none } }

/-- Witness for C6: with an evaluator that raises on every call, the rule node
writes `false` to its output slot and processing continues. -/
theorem rule_fault_is_false_witness :
    stepNode evalNone [] (mkEngine sampleRuleWorkflow, initOutputs (mkEngine sampleRuleWorkflow)) "R"
      = (none, (mkEngine sampleRuleWorkflow,
          writeRuleOutputs (initOutputs (mkEngine sampleRuleWorkflow)) "R" 1 false)) :=
  (rule_fault_is_false evalNone []
    (mkEngine sampleRuleWorkflow, initOutputs (mkEngine sampleRuleWorkflow)) "R"
    sampleRuleNodeR (by decide) (by decide)
    (Or.inr ⟨[("False", Value.bool false)], by decide, rfl⟩)).1

/-! ### C3: the dispatcher has no Source branch -/

theorem stepNode_source_self (ev : Evaluator) (row_data : Row) (st : Engine × Outputs)
    (s : String) (node : Node) (h : dlookup st.1.nodes s = some node)
    (hty : node.data.type = "Source") :
    stepNode ev row_data st s = (none, st) := by
  unfold stepNode
  rw [h]
  simp [hty]

theorem stepNode_bucket_other (ev : Evaluator) (row_data : Row) (st : Engine × Outputs)
    (nid s : String) (h : s ≠ nid) :
    dlookup (stepNode ev row_data st nid).2.2 s = dlookup st.2 s := by
  unfold stepNode
  cases dlookup st.1.nodes nid with
  | none => rfl
  | some node =>
    simp only
    split
    · exact writeRuleOutputs_other _ _ _ _ _ h
    · split
      · exact setOutput_other _ _ _ _ _ h
      · split
        · exact setOutput_other _ _ _ _ _ h
        · split
          · split
            · split
              · split
                · rfl
                · rfl
              · rfl
            · rfl
          · rfl

theorem runNodes_bucket_source (ev : Evaluator) (row_data : Row) (e : Engine)
    (s : String) (node : Node) (hs : dlookup e.nodes s = some node)
    (hty : node.data.type = "Source") :
    ∀ (l : List String) (outs : Outputs),
      dlookup (runNodes ev row_data l (e, outs)).2.2 s = dlookup outs s := by
  intro l
  induction l with
  | nil => intro outs; rfl
  | cons nid rest ih =>
    intro outs
    unfold runNodes
    cases hstep : stepNode ev row_data (e, outs) nid with
    | mk od st1 =>
      obtain ⟨st11, st12⟩ := st1
      have he : st11 = e := by
        have h2 := stepNode_engine ev row_data (e, outs) nid
        rw [hstep] at h2
        exact h2
      subst he
      have hb : dlookup st12 s = dlookup outs s := by
        by_cases hns : s = nid
        · subst hns
          have h3 := stepNode_source_self ev row_data (st11, outs) s node hs hty
          rw [hstep] at h3
          have h4 : st12 = outs := congrArg (fun p => p.2.2) h3
          rw [h4]
        · have h3 := stepNode_bucket_other ev row_data (st11, outs) nid s hns
          rw [hstep] at h3
          exact h3
      cases od with
      | some d => simpa using hb
      | none =>
        simp only
        rw [ih st12, hb]

theorem dlookup_init_bucket (l : List (String × Node)) (s : String) :
    ((dlookup (l.map (fun p => (p.1, ([] : List (String × Bool))))) s).getD []) = [] := by
  induction l with
  | nil => rfl
  | cons p rest ih =>
    by_cases h : p.1 = s
    · simp [dlookup, h]
    · simpa [dlookup, h] using ih

/-- Claim C3 (amended): a node of type `Source` never receives an entry in the
per-row output map — the dispatcher has no Source branch — so after running
any node list, every lookup of one of its output slots misses and every
connection leaving it delivers the missing-value default `false` to its
target, not `true`. -/
theorem source_nodes_emit_nothing (ev : Evaluator) (e : Engine) (row_data : Row)
    (s : String) (node : Node) (hs : dlookup e.nodes s = some node)
    (hty : node.data.type = "Source") (l : List String) (key : String) :
    dlookup ((dlookup (runNodes ev row_data l (e, initOutputs e)).2.2 s).getD []) key
        = none ∧
    ∀ conn : Conn, conn.source_id = s →
      deliveredValue (runNodes ev row_data l (e, initOutputs e)).2.2 conn = false := by
  have hb := runNodes_bucket_source ev row_data e s node hs hty l (initOutputs e)
  have hinit : ((dlookup (initOutputs e) s).getD []) = [] :=
    dlookup_init_bucket e.nodes s
  constructor
  · rw [hb, hinit]
    rfl
  · intro conn hconn
    unfold deliveredValue
    rw [hconn, hb, hinit]
    rfl

/-- The loaded Source node of `sampleSourceWorkflow`. -/
def sampleSourceNodeS : Node :=
  { id := "S", type := "Source", label := "CSV", num_inputs := 0, num_outputs := 1
    data := { id := "S", type := "Source", label := some "CSV", numInputs := none,
              numOutputs := some 1, variableType := none, codeLine := none } }

/-- Witness for the amended C3 at the concrete source workflow. -/
theorem source_nodes_emit_nothing_witness :
    dlookup ((dlookup (runNodes evalTrue [] (mkEngine sampleSourceWorkflow).node_order
        (mkEngine sampleSourceWorkflow, initOutputs (mkEngine sampleSourceWorkflow))).2.2
      "S").getD []) "output0" = none :=
  (source_nodes_emit_nothing evalTrue (mkEngine sampleSourceWorkflow) [] "S"
    sampleSourceNodeS (by decide) (by decide)
    (mkEngine sampleSourceWorkflow).node_order "output0").1

/-- Counterexample to C3 as stated: in the loaded source workflow the Source
node `S` (declared `numOutputs = 1`) is connected to the DISCARD action, yet
the value delivered on that connection is `false` — not `true` — and the row's
decision is `"ACCEPT"`, not `"DISCARD"`. -/
theorem source_emits_true_counterexample :
    dlookup (mkEngine sampleSourceWorkflow).nodes "S" = some sampleSourceNodeS ∧
    sampleSourceNodeS.data.type = "Source" ∧
    sampleSourceNodeS.num_outputs = 1 ∧
    bucketD (mkEngine sampleSourceWorkflow).connections_from_source "S" =
      [{ source_id := "S", source_output_key := "output0", target_id := "D",
         target_input_key := "input0", id := "c1" }] ∧
    deliveredValue (processEventFull evalTrue (mkEngine sampleSourceWorkflow) []).2.2
      { source_id := "S", source_output_key := "output0", target_id := "D",
        target_input_key := "input0", id := "c1" } = false ∧
    processEvent evalTrue (mkEngine sampleSourceWorkflow) [] = "ACCEPT" := by
  refine ⟨by decide, by decide, by decide, by decide, by decide, by decide⟩

/-! ### C7: characterization of `_cast_value` -/

/-- The amended coercion contract, written from the corrected claim: a null
value stays null for every declared type; the declared type is compared
case-insensitively; `float`/`int` return the parsed number (`int` truncated
toward zero) and null on non-numeric text; `str` — and only `str`, not
`string` — stringifies; `bool` maps case-insensitive `true`/`false` strings,
then falls back to numeric truthiness of the parsed string, else null, and
takes plain truthiness on non-string values; every other declared type
(including `string`) returns the value unchanged. -/
def castValueSpec (v : Value) (t : String) : Value :=
  if v = .null then .null
  else if pyLower t = "float" then ((pyFloat v).map Value.num).getD .null
  else if pyLower t = "int" then
    ((pyFloat v).map (fun q => Value.int (truncInt q))).getD .null
  else if pyLower t = "str" then .str (pyStr v)
  else if pyLower t = "bool" then
    match v with
    | .str sv =>
      if pyLower sv = "true" then .bool true
      else if pyLower sv = "false" then .bool false
      else ((parsePyFloat sv).map (fun q => Value.bool (decide (q ≠ 0)))).getD .null
    | w => .bool (pyTruthy w)
  else v

/-- Claim C7 (amended): `_cast_value` satisfies the corrected coercion
contract `castValueSpec` on every value and declared type. -/
theorem cast_value_amended (v : Value) (t : String) :
    castValue v t = castValueSpec v t := by
  cases v with
  | null => rfl
  | bool b =>
    unfold castValue castValueSpec
    rw [if_neg (fun h => Value.noConfusion h)]
    split_ifs <;> simp [pyFloat]
  | num q =>
    unfold castValue castValueSpec
    rw [if_neg (fun h => Value.noConfusion h)]
    split_ifs <;> simp [pyFloat]
  | int n =>
    unfold castValue castValueSpec
    rw [if_neg (fun h => Value.noConfusion h)]
    split_ifs <;> simp [pyFloat]
  | str sv =>
    unfold castValue castValueSpec
    rw [if_neg (fun h => Value.noConfusion h)]
    cases h : parsePyFloat sv <;> split_ifs <;> simp [pyFloat, h]

/-- Counterexample to C7 as stated: the declared type `"string"` is NOT an
identity stringify — it falls through to the unrecognized-type branch and
returns the float value `2` unchanged (not the string `"2.0"`), while only
the declared type `"str"` stringifies. -/
theorem cast_value_string_counterexample :
    castValue (Value.num 2) "string" = Value.num 2 ∧
    castValue (Value.num 2) "string" ≠ Value.str (pyStr (Value.num 2)) ∧
    castValue (Value.num 2) "str" = Value.str "2.0" := by
  refine ⟨by decide, by decide, by decide⟩

/-! ### Graph cycles -/

/-- All loaded connections, read off the by-source adjacency map. -/
def allConns (cf : List (String × List Conn)) : List Conn :=
  (cf.map Prod.snd).flatten

/-- A directed edge of the loaded graph. -/
def hasEdge (cf : List (String × List Conn)) (u v : String) : Prop :=
  ∃ c ∈ allConns cf, c.source_id = u ∧ c.target_id = v

/-- The loaded graph contains a directed cycle. -/
def HasCycle (cf : List (String × List Conn)) : Prop :=
  ∃ v, Relation.TransGen (hasEdge cf) v v

/-- The loaded graph is acyclic. -/
def Acyclic (cf : List (String × List Conn)) : Prop := ¬ HasCycle cf

/-- Two AND gates feeding each other: a two-node cycle. -/
def cyclicWorkflow : Workflow :=
  { nodes :=
      [ { id := "A", type := "AND", label := none, numInputs := some 1,
          numOutputs := none, variableType := none, codeLine := none },
        { id := "B", type := "AND", label := none, numInputs := some 1,
          numOutputs := none, variableType := none, codeLine := none } ],
    connections :=
      [ { id := "c1", sourceNodeId := "A", sourceOutputKey := "output",
          targetNodeId := "B", targetInputKey := "input0" },
        { id := "c2", sourceNodeId := "B", sourceOutputKey := "output",
          targetNodeId := "A", targetInputKey := "input0" } ] }

/-- Claim C1 fails on the code (the spec is the documented intent — app.py's
`except ValueError` comment expects cycle detection to raise from the
constructor — but the engine never raises): on the cyclic two-node workflow
`A ⇄ B`, loading succeeds, the unvisited nodes are appended to the order in
insertion order instead of producing a `CycleError`, a row IS processed and
the run reports a normal decision with `total_processed = 1`. -/
theorem cyclic_workflow_is_processed :
    HasCycle (mkEngine cyclicWorkflow).connections_from_source ∧
    (mkEngine cyclicWorkflow).node_order = ["A", "B"] ∧
    processEvent evalTrue (mkEngine cyclicWorkflow) [] = "ACCEPT" ∧
    (runWorkflowRows evalTrue (mkEngine cyclicWorkflow) [[]]).2.total_processed = 1 ∧
    (runWorkflowRows evalTrue (mkEngine cyclicWorkflow) [[]]).2.accepted = 1 ∧
    (runWorkflowRows evalTrue (mkEngine cyclicWorkflow) [[]]).2.errors = 0 := by
  refine ⟨?_, by decide, by decide, by decide, by decide, by decide⟩
  have hAB : hasEdge (mkEngine cyclicWorkflow).connections_from_source "A" "B" := by
    unfold hasEdge
    decide
  have hBA : hasEdge (mkEngine cyclicWorkflow).connections_from_source "B" "A" := by
    unfold hasEdge
    decide
  exact ⟨"A", Relation.TransGen.head hAB (Relation.TransGen.single hBA)⟩

/-! ### C2: correctness of the topological scheduler (Kahn's algorithm) -/

/-- Number of connections in `l` targeting `v`. -/
def countTarget (l : List Conn) (v : String) : Nat :=
  (l.filter (fun c => c.target_id = v)).length

/-- The connections whose source bucket is still unvisited. -/
def remConns (cf : List (String × List Conn)) (vis : List String) : List Conn :=
  ((cf.filter (fun p => decide (p.1 ∉ vis))).map Prod.snd).flatten

theorem countTarget_append (l1 l2 : List Conn) (v : String) :
    countTarget (l1 ++ l2) v = countTarget l1 v + countTarget l2 v := by
  unfold countTarget
  rw [List.filter_append, List.length_append]

theorem remConns_nil_vis (cf : List (String × List Conn)) :
    remConns cf [] = allConns cf := by
  unfold remConns allConns
  congr 1
  rw [List.filter_eq_self.mpr]
  intro p _
  simp

theorem remConns_not_key (cf : List (String × List Conn)) (u : String) (vis : List String)
    (hu : u ∉ dictKeys cf) : remConns cf (u :: vis) = remConns cf vis := by
  unfold remConns
  congr 2
  apply List.filter_congr
  intro p hp
  have hpu : p.1 ≠ u := by
    intro h
    exact hu (h ▸ List.mem_map_of_mem Prod.fst hp)
  simp [List.mem_cons, hpu]

theorem countTarget_remConns_split (cf : List (String × List Conn)) (vis : List String)
    (u : String) (hnodup : (dictKeys cf).Nodup) (hu : u ∉ vis) (v : String) :
    countTarget (remConns cf vis) v =
      countTarget (bucketD cf u) v + countTarget (remConns cf (u :: vis)) v := by
  induction cf with
  | nil => simp [remConns, bucketD, dlookup, countTarget]
  | cons p rest ih =>
    have hnodup2 : (dictKeys rest).Nodup := by
      simpa [dictKeys] using hnodup.of_cons
    by_cases hpu : p.1 = u
    · have hrest : u ∉ dictKeys rest := by
        simp only [dictKeys, List.map_cons, List.nodup_cons] at hnodup
        exact hpu ▸ hnodup.1
      have h1 : remConns (p :: rest) vis = p.2 ++ remConns rest vis := by
        unfold remConns
        rw [List.filter_cons_of_pos (by simpa [hpu] using hu)]
        simp
      have h2 : remConns (p :: rest) (u :: vis) = remConns rest (u :: vis) := by
        unfold remConns
        rw [List.filter_cons_of_neg (by simp [hpu])]
      have h3 : bucketD (p :: rest) u = p.2 := by
        simp [bucketD, dlookup, hpu]
      rw [h1, h2, h3, countTarget_append, remConns_not_key rest u vis hrest]
    · have h3 : bucketD (p :: rest) u = bucketD rest u := by
        simp [bucketD, dlookup, hpu]
      by_cases hpv : p.1 ∈ vis
      · have h1 : remConns (p :: rest) vis = remConns rest vis := by
          unfold remConns
          rw [List.filter_cons_of_neg (by simp [hpv])]
        have h2 : remConns (p :: rest) (u :: vis) = remConns rest (u :: vis) := by
          unfold remConns
          rw [List.filter_cons_of_neg (by simp [List.mem_cons, hpv])]
        rw [h1, h2, h3, ih hnodup2]
      · have h1 : remConns (p :: rest) vis = p.2 ++ remConns rest vis := by
          unfold remConns
          rw [List.filter_cons_of_pos (by simpa using hpv)]
          simp
        have h2 : remConns (p :: rest) (u :: vis) = p.2 ++ remConns rest (u :: vis) := by
          unfold remConns
          rw [List.filter_cons_of_pos (by simp [List.mem_cons, hpu, hpv])]
          simp
        rw [h1, h2, h3, countTarget_append, countTarget_append, ih hnodup2]
        omega

theorem countTarget_eq_zero_iff (l : List Conn) (v : String) :
    countTarget l v = 0 ↔ ∀ c ∈ l, c.target_id ≠ v := by
  unfold countTarget
  rw [List.length_eq_zero, List.filter_eq_nil_iff]
  simp

theorem mem_remConns (cf : List (String × List Conn)) (vis : List String) (c : Conn) :
    c ∈ remConns cf vis ↔ ∃ p ∈ cf, p.1 ∉ vis ∧ c ∈ p.2 := by
  unfold remConns
  simp only [List.mem_flatten, List.mem_map, List.mem_filter]
  constructor
  · rintro ⟨l, ⟨p, ⟨hp, hvis⟩, rfl⟩, hc⟩
    exact ⟨p, hp, by simpa using hvis, hc⟩
  · rintro ⟨p, hp, hvis, hc⟩
    exact ⟨p.2, ⟨p, ⟨hp, by simpa using hvis⟩, rfl⟩, hc⟩

theorem mem_allConns (cf : List (String × List Conn)) (c : Conn) :
    c ∈ allConns cf ↔ ∃ p ∈ cf, c ∈ p.2 := by
  unfold allConns
  simp only [List.mem_flatten, List.mem_map]
  constructor
  · rintro ⟨l, ⟨p, hp, rfl⟩, hc⟩
    exact ⟨p, hp, hc⟩
  · rintro ⟨p, hp, hc⟩
    exact ⟨p.2, ⟨p, hp, rfl⟩, hc⟩

theorem mem_entry_eq_bucketD (cf : List (String × List Conn)) (p : String × List Conn)
    (hnodup : (dictKeys cf).Nodup) (hp : p ∈ cf) : bucketD cf p.1 = p.2 := by
  induction cf with
  | nil => cases hp
  | cons q rest ih =>
    rcases List.mem_cons.mp hp with h | h
    · subst h
      simp [bucketD, dlookup]
    · have hq : q.1 ≠ p.1 := by
        simp only [dictKeys, List.map_cons, List.nodup_cons] at hnodup
        intro hh
        exact hnodup.1 (hh ▸ List.mem_map_of_mem Prod.fst h)
      have hnodup2 : (dictKeys rest).Nodup := by
        simpa [dictKeys] using hnodup.of_cons
      simpa [bucketD, dlookup, hq] using ih hnodup2 h

theorem mem_dictSet {α : Type} (m : List (String × α)) (k : String) (v : α)
    (p : String × α) (hp : p ∈ dictSet m k v) : p ∈ m ∨ p = (k, v) := by
  induction m with
  | nil => cases hp
  | cons q rest ih =>
    by_cases hq : q.1 = k
    · simp only [dictSet, if_pos hq] at hp
      rcases List.mem_cons.mp hp with h | h
      · exact Or.inr h
      · exact Or.inl (List.mem_cons_of_mem q h)
    · simp only [dictSet, if_neg hq] at hp
      rcases List.mem_cons.mp hp with h | h
      · exact Or.inl (h ▸ List.mem_cons_self q rest)
      · rcases ih h with h2 | h2
        · exact Or.inl (List.mem_cons_of_mem q h2)
        · exact Or.inr h2

theorem mem_dictInsert {α : Type} (m : List (String × α)) (k : String) (v : α)
    (p : String × α) (hp : p ∈ dictInsert m k v) : p ∈ m ∨ p = (k, v) := by
  unfold dictInsert at hp
  by_cases h : (dlookup m k).isSome = true
  · exact mem_dictSet m k v p (by rwa [if_pos h] at hp)
  · rw [if_neg h] at hp
    rcases List.mem_append.mp hp with h2 | h2
    · exact Or.inl h2
    · exact Or.inr (List.mem_singleton.mp h2)

/-- Invariant of the node-loading fold: distinct keys, the three maps share
their key list, and every connection bucket is empty. -/
def LNInv
    (acc : List (String × Node) × List (String × List Conn) × List (String × List Conn)) :
    Prop :=
  (dictKeys acc.1).Nodup ∧
  dictKeys acc.2.1 = dictKeys acc.1 ∧
  dictKeys acc.2.2 = dictKeys acc.1 ∧
  (∀ p ∈ acc.2.1, p.2 = ([] : List Conn)) ∧
  (∀ p ∈ acc.2.2, p.2 = ([] : List Conn))

theorem LNInv_step
    (acc : List (String × Node) × List (String × List Conn) × List (String × List Conn))
    (d : NodeDesc) (h : LNInv acc) : LNInv (loadNodesStep acc d) := by
  obtain ⟨h1, h2, h3, h4, h5⟩ := h
  unfold LNInv loadNodesStep
  dsimp only
  refine ⟨?_, ?_, ?_, ?_, ?_⟩
  · exact dictKeys_dictInsert_nodup _ _ _ h1
  · by_cases hk : d.id ∈ dictKeys acc.1
    · rw [dictKeys_dictInsert_mem _ _ _ (h2 ▸ hk), dictKeys_dictInsert_mem _ _ _ hk, h2]
    · rw [dictKeys_dictInsert_not_mem _ _ _ (fun hh => hk (h2 ▸ hh)),
        dictKeys_dictInsert_not_mem _ _ _ hk, h2]
  · by_cases hk : d.id ∈ dictKeys acc.1
    · rw [dictKeys_dictInsert_mem _ _ _ (h3 ▸ hk), dictKeys_dictInsert_mem _ _ _ hk, h3]
    · rw [dictKeys_dictInsert_not_mem _ _ _ (fun hh => hk (h3 ▸ hh)),
        dictKeys_dictInsert_not_mem _ _ _ hk, h3]
  · intro p hp
    rcases mem_dictInsert _ _ _ p hp with hh | hh
    · exact h4 p hh
    · rw [hh]
  · intro p hp
    rcases mem_dictInsert _ _ _ p hp with hh | hh
    · exact h5 p hh
    · rw [hh]

theorem loadNodes_inv (descs : List NodeDesc) : LNInv (loadNodes descs) := by
  unfold loadNodes
  have hgen : ∀ (l : List NodeDesc) acc, LNInv acc → LNInv (l.foldl loadNodesStep acc) := by
    intro l
    induction l with
    | nil => intro acc h; exact h
    | cons d rest ih =>
      intro acc h
      exact ih _ (LNInv_step acc d h)
  refine hgen descs ([], [], []) ?_
  refine ⟨List.nodup_nil, rfl, rfl, ?_, ?_⟩ <;> (intro p hp; cases hp)

theorem allConns_cons (p : String × List Conn) (rest : List (String × List Conn)) :
    allConns (p :: rest) = p.2 ++ allConns rest := by
  unfold allConns
  simp

theorem countTarget_allConns_dictSet_append (f : List (String × List Conn)) (s : String)
    (c : Conn) (oldb : List Conn) (hs : dlookup f s = some oldb) (v : String) :
    countTarget (allConns (dictSet f s (oldb ++ [c]))) v =
      countTarget (allConns f) v + countTarget [c] v := by
  induction f with
  | nil => cases hs
  | cons p rest ih =>
    by_cases hp : p.1 = s
    · have hob : oldb = p.2 := by
        simp only [dlookup, if_pos hp] at hs
        exact (Option.some.injEq _ _ ▸ hs).symm
      subst hob
      rw [dictSet, if_pos hp, allConns_cons, allConns_cons]
      simp only
      rw [countTarget_append, countTarget_append, countTarget_append]
      omega
    · rw [dictSet, if_neg hp, allConns_cons, allConns_cons, countTarget_append,
        countTarget_append, ih (by simpa [dlookup, hp] using hs)]
      omega

theorem dlookup_mem {α : Type} (m : List (String × α)) (k : String) (b : α)
    (h : dlookup m k = some b) : (k, b) ∈ m := by
  induction m with
  | nil => cases h
  | cons p rest ih =>
    by_cases hp : p.1 = k
    · simp only [dlookup, if_pos hp] at h
      injection h with hb
      cases p with
      | mk pk pv =>
        simp only at hp hb
        rw [← hp, ← hb]
        exact List.mem_cons_self _ _
    · simp only [dlookup, if_neg hp] at h
      exact List.mem_cons_of_mem _ (ih h)

/-- Well-formedness of the loaded adjacency maps: shared distinct key lists,
each by-source bucket holds exactly connections leaving that key with both
endpoints known, and each by-target bucket's length counts the loaded
connections into that node. -/
structure LoadWF (nodes : List (String × Node)) (cf ct : List (String × List Conn)) :
    Prop where
  nodupN : (dictKeys nodes).Nodup
  keysF : dictKeys cf = dictKeys nodes
  keysT : dictKeys ct = dictKeys nodes
  srcF : ∀ k : String, ∀ c ∈ bucketD cf k,
    c.source_id = k ∧ c.target_id ∈ dictKeys nodes
  cnt : ∀ v : String, (bucketD ct v).length = countTarget (allConns cf) v

theorem LoadWF_step (nodes : List (String × Node))
    (acc : List (String × List Conn) × List (String × List Conn)) (cd : ConnDesc)
    (h : LoadWF nodes acc.1 acc.2) :
    LoadWF nodes (loadConnsStep nodes acc cd).1 (loadConnsStep nodes acc cd).2 := by
  unfold loadConnsStep
  by_cases hg : (dlookup nodes cd.sourceNodeId).isSome = true ∧
      (dlookup nodes cd.targetNodeId).isSome = true
  · rw [if_pos hg]
    dsimp only
    have hsmem : cd.sourceNodeId ∈ dictKeys nodes := (dlookup_isSome_iff _ _).mp hg.1
    have htmem : cd.targetNodeId ∈ dictKeys nodes := (dlookup_isSome_iff _ _).mp hg.2
    have hsF : cd.sourceNodeId ∈ dictKeys acc.1 := h.keysF ▸ hsmem
    have htT : cd.targetNodeId ∈ dictKeys acc.2 := h.keysT ▸ htmem
    have hsl : dlookup acc.1 cd.sourceNodeId = some (bucketD acc.1 cd.sourceNodeId) := by
      unfold bucketD
      cases hc : dlookup acc.1 cd.sourceNodeId with
      | none => exact absurd ((dlookup_eq_none_iff _ _).mp hc) (by simpa using hsF)
      | some b => rfl
    refine ⟨h.nodupN, ?_, ?_, ?_, ?_⟩
    · rw [dictKeys_dictInsert_mem _ _ _ hsF, h.keysF]
    · rw [dictKeys_dictInsert_mem _ _ _ htT, h.keysT]
    · intro k c hc
      by_cases hk : k = cd.sourceNodeId
      · subst hk
        rw [bucketD, dlookup_dictInsert_self] at hc
        simp only [Option.getD_some] at hc
        rcases List.mem_append.mp hc with h2 | h2
        · exact h.srcF _ c h2
        · rw [List.mem_singleton.mp h2]
          exact ⟨rfl, htmem⟩
      · rw [bucketD, dlookup_dictInsert_ne _ _ _ _ hk] at hc
        exact h.srcF k c hc
    · intro v
      have hcount := countTarget_allConns_dictSet_append acc.1 cd.sourceNodeId
        (connOf cd) (bucketD acc.1 cd.sourceNodeId) hsl v
      have hins : dictInsert acc.1 cd.sourceNodeId
          (bucketD acc.1 cd.sourceNodeId ++ [connOf cd]) =
          dictSet acc.1 cd.sourceNodeId
          (bucketD acc.1 cd.sourceNodeId ++ [connOf cd]) := by
        unfold dictInsert
        rw [if_pos (by simp [hsl])]
      rw [hins, hcount]
      by_cases hv : v = cd.targetNodeId
      · rw [hv]
        have h1 : bucketD (dictInsert acc.2 cd.targetNodeId
            (bucketD acc.2 cd.targetNodeId ++ [connOf cd])) cd.targetNodeId =
            bucketD acc.2 cd.targetNodeId ++ [connOf cd] := by
          rw [bucketD, dlookup_dictInsert_self]
          rfl
        have h2 : countTarget [connOf cd] cd.targetNodeId = 1 := by
          simp [countTarget, connOf]
        rw [h1, List.length_append, h2, h.cnt cd.targetNodeId]
        rfl
      · have h1 : bucketD (dictInsert acc.2 cd.targetNodeId
            (bucketD acc.2 cd.targetNodeId ++ [connOf cd])) v = bucketD acc.2 v := by
          rw [bucketD, dlookup_dictInsert_ne _ _ _ _ hv]
          rfl
        have h2 : countTarget [connOf cd] v = 0 := by
          simp only [countTarget, List.length_eq_zero, List.filter_eq_nil_iff]
          intro c hc
          rw [List.mem_singleton.mp hc]
          simp only [connOf, decide_eq_true_eq]
          intro hh
          exact absurd hh.symm hv
        rw [h1, h2, h.cnt v]
        omega
  · rw [if_neg hg]
    exact h

theorem loadConns_wf (nodes : List (String × Node))
    (maps : List (String × List Conn) × List (String × List Conn))
    (descs : List ConnDesc) (h : LoadWF nodes maps.1 maps.2) :
    LoadWF nodes (loadConns nodes maps descs).1 (loadConns nodes maps descs).2 := by
  unfold loadConns
  induction descs generalizing maps with
  | nil => exact h
  | cons cd rest ih =>
    simp only [List.foldl_cons]
    exact ih _ (LoadWF_step nodes maps cd h)

/-- The engine built by `mkEngine` always has well-formed adjacency maps. -/
theorem mkEngine_wf (w : Workflow) :
    LoadWF (mkEngine w).nodes (mkEngine w).connections_from_source
      (mkEngine w).connections_to_target := by
  have hln := loadNodes_inv w.nodes
  obtain ⟨h1, h2, h3, h4, h5⟩ := hln
  have hinit : LoadWF (loadNodes w.nodes).1 (loadNodes w.nodes).2.1
      (loadNodes w.nodes).2.2 := by
    have hall : allConns (loadNodes w.nodes).2.1 = [] := by
      have : ∀ (l : List (String × List Conn)), (∀ p ∈ l, p.2 = ([] : List Conn)) →
          allConns l = [] := by
        intro l
        induction l with
        | nil => intro _; rfl
        | cons p rest ih2 =>
          intro hall2
          rw [allConns_cons, hall2 p (List.mem_cons_self p rest),
            ih2 (fun q hq => hall2 q (List.mem_cons_of_mem p hq))]
          rfl
      exact this _ h4
    refine ⟨h1, h2, h3, ?_, ?_⟩
    · intro k c hc
      exfalso
      unfold bucketD at hc
      cases hcl : dlookup (loadNodes w.nodes).2.1 k with
      | none => rw [hcl] at hc; cases hc
      | some b =>
        rw [hcl] at hc
        simp only [Option.getD_some] at hc
        have hb : b = [] := h4 _ (dlookup_mem _ _ _ hcl)
        rw [hb] at hc
        cases hc
    · intro v
      rw [hall]
      have hbt : bucketD (loadNodes w.nodes).2.2 v = [] := by
        unfold bucketD
        cases hcl : dlookup (loadNodes w.nodes).2.2 v with
        | none => rfl
        | some b =>
          have hb : b = [] := h5 _ (dlookup_mem _ _ _ hcl)
          simp [hb]
      rw [hbt]
      rfl
  exact loadConns_wf (loadNodes w.nodes).1
    ((loadNodes w.nodes).2.1, (loadNodes w.nodes).2.2) w.connections hinit

theorem countTarget_cons (c : Conn) (l : List Conn) (v : String) :
    countTarget (c :: l) v = countTarget l v + (if c.target_id = v then 1 else 0) := by
  unfold countTarget
  by_cases h : c.target_id = v
  · rw [List.filter_cons_of_pos (by simp [h])]
    simp [h, Nat.add_comm]
  · rw [List.filter_cons_of_neg (by simp [h])]
    simp [h]

/-- Aggregate specification of the inner connection loop: keys are preserved,
every in-degree drops by exactly the number of processed connections
targeting it, the queue only grows — by unvisited known nodes — and both
queue invariants (queued-unvisited nodes have in-degree zero; unvisited
zero-in-degree nodes are queued) are preserved. -/
theorem kahnConns_spec (visited : List String) (conns : List Conn) :
    ∀ (m : List (String × Int)) (q : List String),
    (∀ c ∈ conns, c.target_id ∈ dictKeys m) →
    (∀ (v : String) (d : Int), dlookup m v = some d → (countTarget conns v : Int) ≤ d) →
    (∀ x ∈ q, x ∉ visited → dlookup m x = some 0) →
    (∀ v ∈ dictKeys m, v ∉ visited → dlookup m v = some 0 → v ∈ q) →
    dictKeys (kahnConns visited conns (m, q)).1 = dictKeys m ∧
    (∀ (v : String) (d : Int), dlookup m v = some d →
      dlookup (kahnConns visited conns (m, q)).1 v = some (d - countTarget conns v)) ∧
    (∀ x ∈ q, x ∈ (kahnConns visited conns (m, q)).2) ∧
    (∀ x ∈ (kahnConns visited conns (m, q)).2,
      x ∈ q ∨ (x ∈ dictKeys m ∧ x ∉ visited)) ∧
    (∀ x ∈ (kahnConns visited conns (m, q)).2, x ∉ visited →
      dlookup (kahnConns visited conns (m, q)).1 x = some 0) ∧
    (∀ v ∈ dictKeys m, v ∉ visited →
      dlookup (kahnConns visited conns (m, q)).1 v = some 0 →
      v ∈ (kahnConns visited conns (m, q)).2) := by
  induction conns with
  | nil =>
    intro m q htgt hpre hqz hqc
    refine ⟨rfl, ?_, ?_, ?_, ?_, ?_⟩
    · intro v d hd
      simpa [countTarget] using hd
    · intro x hx; exact hx
    · intro x hx; exact Or.inl hx
    · intro x hx hv; exact hqz x hx hv
    · intro v hv hnv h0; exact hqc v hv hnv h0
  | cons c rest ih =>
    intro m q htgt hpre hqz hqc
    have hwmem : c.target_id ∈ dictKeys m := htgt c (List.mem_cons_self c rest)
    have hws : (dlookup m c.target_id).isSome = true := (dlookup_isSome_iff _ _).mpr hwmem
    cases hl : dlookup m c.target_id with
    | none => rw [hl] at hws; cases hws
    | some d =>
      have hstep : kahnConnStep visited (m, q) c =
          (dictSet m c.target_id (d - 1),
           if d - 1 = 0 ∧ c.target_id ∉ visited then q ++ [c.target_id] else q) := by
        unfold kahnConnStep
        dsimp only
        rw [hl]
        dsimp only
        by_cases hcond : d - 1 = 0 ∧ c.target_id ∉ visited
        · rw [if_pos hcond, if_pos hcond]
        · rw [if_neg hcond, if_neg hcond]
      have hrun : kahnConns visited (c :: rest) (m, q) =
          kahnConns visited rest
            (dictSet m c.target_id (d - 1),
             if d - 1 = 0 ∧ c.target_id ∉ visited then q ++ [c.target_id] else q) := by
        show kahnConns visited rest (kahnConnStep visited (m, q) c) = _
        rw [hstep]
      set m1 := dictSet m c.target_id (d - 1) with hm1
      set q1 := if d - 1 = 0 ∧ c.target_id ∉ visited then q ++ [c.target_id] else q
        with hq1
      have hkeys1 : dictKeys m1 = dictKeys m := dictKeys_dictSet m _ _
      have hlook1 : ∀ v : String, v ≠ c.target_id → dlookup m1 v = dlookup m v :=
        fun v hv => dlookup_dictSet_ne m _ v _ hv
      have hlookw : dlookup m1 c.target_id = some (d - 1) :=
        dlookup_dictSet_self m _ _ hwmem
      have hcnt1 : countTarget (c :: rest) c.target_id =
          countTarget rest c.target_id + 1 := by
        rw [countTarget_cons]
        simp
      have hq1mem : ∀ x ∈ q1, x ∈ q ∨ x = c.target_id := by
        intro x hx
        rw [hq1] at hx
        by_cases hcond : d - 1 = 0 ∧ c.target_id ∉ visited
        · rw [if_pos hcond] at hx
          rcases List.mem_append.mp hx with h2 | h2
          · exact Or.inl h2
          · exact Or.inr (List.mem_singleton.mp h2)
        · rw [if_neg hcond] at hx
          exact Or.inl hx
      have hqsub : ∀ x ∈ q, x ∈ q1 := by
        intro x hx
        rw [hq1]
        by_cases hcond : d - 1 = 0 ∧ c.target_id ∉ visited
        · rw [if_pos hcond]; exact List.mem_append_left _ hx
        · rw [if_neg hcond]; exact hx
      have hwq : c.target_id ∈ q → c.target_id ∉ visited → False := by
        intro hwqm hwv
        have h0 := hqz _ hwqm hwv
        rw [hl] at h0
        have hle := hpre c.target_id d hl
        rw [hcnt1] at hle
        injection h0 with h0
        push_cast at hle
        omega
      have ihres := ih m1 q1
        (fun c2 hc2 => hkeys1 ▸ htgt c2 (List.mem_cons_of_mem c hc2))
        (by
          intro v d2 hd2
          by_cases hv : v = c.target_id
          · subst hv
            rw [hlookw] at hd2
            injection hd2 with hd2
            have hle := hpre c.target_id d hl
            rw [countTarget_cons] at hle
            simp only [if_pos rfl] at hle
            push_cast at hle
            omega
          · rw [hlook1 v hv] at hd2
            have hle := hpre v d2 hd2
            rw [countTarget_cons] at hle
            by_cases hcv : c.target_id = v
            · exact absurd hcv.symm hv
            · rw [if_neg hcv] at hle
              push_cast at hle
              omega)
        (by
          intro x hx hxv
          rcases hq1mem x hx with h2 | h2
          · by_cases hxw : x = c.target_id
            · exact (hwq (hxw ▸ h2) (hxw ▸ hxv)).elim
            · rw [hlook1 x hxw]
              exact hqz x h2 hxv
          · subst h2
            rw [hlookw]
            by_cases hcond : d - 1 = 0 ∧ c.target_id ∉ visited
            · rw [hcond.1]
            · rw [hq1, if_neg hcond] at hx
              exact (hwq hx hxv).elim)
        (by
          intro v hv hnv h0
          by_cases hvw : v = c.target_id
          · subst hvw
            rw [hlookw] at h0
            injection h0 with h0
            rw [hq1, if_pos ⟨h0, hnv⟩]
            exact List.mem_append_right _ (List.mem_singleton.mpr rfl)
          · rw [hkeys1] at hv
            rw [hlook1 v hvw] at h0
            exact hqsub v (hqc v hv hnv h0))
      obtain ⟨ik, icount, igrow, iorig, ihz, ihq⟩ := ihres
      rw [hrun]
      refine ⟨by rw [ik, hkeys1], ?_, ?_, ?_, ?_, ?_⟩
      · intro v d2 hd2
        by_cases hv : v = c.target_id
        · subst hv
          rw [hl] at hd2
          injection hd2 with hd2
          have hic := icount c.target_id (d - 1) hlookw
          rw [hic]
          simp only [Option.some.injEq]
          rw [hcnt1]
          push_cast
          omega
        · have hic := icount v d2 (by rw [hlook1 v hv]; exact hd2)
          rw [hic]
          simp only [Option.some.injEq]
          rw [countTarget_cons]
          by_cases hcv : c.target_id = v
          · exact absurd hcv.symm hv
          · rw [if_neg hcv]
            push_cast
            omega
      · intro x hx
        exact igrow x (hqsub x hx)
      · intro x hx
        rcases iorig x hx with h2 | h2
        · rw [hq1] at h2
          by_cases hcond : d - 1 = 0 ∧ c.target_id ∉ visited
          · rw [if_pos hcond] at h2
            rcases List.mem_append.mp h2 with h3 | h3
            · exact Or.inl h3
            · have h4 := List.mem_singleton.mp h3
              subst h4
              exact Or.inr ⟨hwmem, hcond.2⟩
          · rw [if_neg hcond] at h2
            exact Or.inl h2
        · exact Or.inr ⟨hkeys1 ▸ h2.1, h2.2⟩
      · exact ihz
      · intro v hv hnv h0
        exact ihq v (by rw [hkeys1]; exact hv) hnv h0

theorem degWeight_vis_mono (vis : List String) (u : String) (p : String × Int) :
    degWeight (u :: vis) p ≤ degWeight vis p := by
  unfold degWeight
  by_cases h1 : p.1 ∈ u :: vis
  · simp [h1]
  · have h2 : p.1 ∉ vis := fun hh => h1 (List.mem_cons_of_mem u hh)
    simp [h1, h2]

theorem sum_degWeight_dictSet (m : List (String × Int)) (w : String) (d x : Int)
    (vis : List String) (hl : dlookup m w = some d) :
    ((dictSet m w x).map (degWeight vis)).sum + degWeight vis (w, d) =
      (m.map (degWeight vis)).sum + degWeight vis (w, x) := by
  induction m with
  | nil => cases hl
  | cons p rest ih =>
    by_cases hp : p.1 = w
    · simp only [dlookup, if_pos hp] at hl
      injection hl with hl
      rw [dictSet, if_pos hp]
      simp only [List.map_cons, List.sum_cons]
      have hpw : degWeight vis p = degWeight vis (w, d) := by
        unfold degWeight
        rw [hp, hl]
      rw [hpw]
      omega
    · simp only [dlookup, if_neg hp] at hl
      rw [dictSet, if_neg hp]
      simp only [List.map_cons, List.sum_cons]
      have := ih hl
      omega

theorem kahnConnStep_measure (vis : List String)
    (st : List (String × Int) × List String) (c : Conn) :
    (kahnConnStep vis st c).2.length +
        ((kahnConnStep vis st c).1.map (degWeight vis)).sum ≤
      st.2.length + (st.1.map (degWeight vis)).sum := by
  unfold kahnConnStep
  dsimp only
  cases hl : dlookup st.1 c.target_id with
  | none => exact Nat.le_refl _
  | some d =>
    dsimp only
    have hsum := sum_degWeight_dictSet st.1 c.target_id d (d - 1) vis hl
    by_cases hcond : d - 1 = 0 ∧ c.target_id ∉ vis
    · rw [if_pos hcond]
      dsimp only
      have hd : d = 1 := by omega
      subst hd
      simp only [degWeight, if_neg hcond.2] at hsum
      simp only [List.length_append, List.length_cons, List.length_nil]
      omega
    · rw [if_neg hcond]
      dsimp only
      have hw : degWeight vis (c.target_id, d - 1) ≤ degWeight vis (c.target_id, d) := by
        unfold degWeight
        by_cases hmem : c.target_id ∈ vis
        · simp [hmem]
        · simp only [if_neg hmem]
          omega
      omega

theorem kahnConns_measure (vis : List String) (conns : List Conn) :
    ∀ st : List (String × Int) × List String,
      (kahnConns vis conns st).2.length +
          ((kahnConns vis conns st).1.map (degWeight vis)).sum ≤
        st.2.length + (st.1.map (degWeight vis)).sum := by
  induction conns with
  | nil => intro st; exact Nat.le_refl _
  | cons c rest ih =>
    intro st
    calc (kahnConns vis (c :: rest) st).2.length +
            ((kahnConns vis (c :: rest) st).1.map (degWeight vis)).sum
        ≤ (kahnConnStep vis st c).2.length +
            ((kahnConnStep vis st c).1.map (degWeight vis)).sum := ih _
      _ ≤ st.2.length + (st.1.map (degWeight vis)).sum := kahnConnStep_measure vis st c

theorem sum_degWeight_vis_mono (m : List (String × Int)) (u : String) (vis : List String) :
    (m.map (degWeight (u :: vis))).sum ≤ (m.map (degWeight vis)).sum := by
  induction m with
  | nil => exact Nat.le_refl _
  | cons p rest ih =>
    simp only [List.map_cons, List.sum_cons]
    exact Nat.add_le_add (degWeight_vis_mono vis u p) ih

/-- The fuel `kahnMeasure st` is always enough for the `while queue:` loop to
run until the queue is exhausted, so the fuelled embedding faithfully models
the unbounded Python loop. -/
theorem kahnLoop_queue_empty (cf : List (String × List Conn)) :
    ∀ (fuel : Nat) (st : KahnState), kahnMeasure st ≤ fuel →
      (kahnLoop cf fuel st).queue = [] := by
  intro fuel
  induction fuel with
  | zero =>
    intro st h
    unfold kahnMeasure at h
    have : st.queue.length = 0 := by omega
    rw [kahnLoop]
    exact List.length_eq_zero.mp this
  | succ fuel ih =>
    intro st h
    rw [kahnLoop]
    cases hq : st.queue with
    | nil => exact hq
    | cons u rest =>
      dsimp only
      by_cases hu : u ∈ st.visited_in_sort
      · rw [if_pos hu]
        apply ih
        unfold kahnMeasure at h ⊢
        dsimp only
        rw [hq] at h
        simp only [List.length_cons] at h
        omega
      · rw [if_neg hu]
        apply ih
        unfold kahnMeasure at h ⊢
        dsimp only
        rw [hq] at h
        simp only [List.length_cons] at h
        have h1 := kahnConns_measure (u :: st.visited_in_sort) (bucketD cf u)
          (st.in_degree, rest)
        have h2 := sum_degWeight_vis_mono st.in_degree u st.visited_in_sort
        dsimp only at h1
        omega

/-- Invariant of the `while queue:` loop of `_get_topological_order`, relating
the working state to the loaded graph: `in_degree` counts, for every node, the
incoming connections whose source bucket is still unvisited; queued unvisited
nodes have in-degree zero and vice versa; and the prefix of the order emitted
so far already satisfies the topological property. -/
structure KahnInv (keys0 : List String) (cf : List (String × List Conn))
    (st : KahnState) : Prop where
  keysI : dictKeys st.in_degree = keys0
  visKeys : ∀ v ∈ st.visited_in_sort, v ∈ keys0
  ordVis : ∀ v : String, v ∈ st.sorted_order ↔ v ∈ st.visited_in_sort
  ordNodup : st.sorted_order.Nodup
  qKeys : ∀ x ∈ st.queue, x ∈ keys0
  deg : ∀ v ∈ keys0, dlookup st.in_degree v =
    some ((countTarget (remConns cf st.visited_in_sort) v : Int))
  qZero : ∀ x ∈ st.queue, x ∉ st.visited_in_sort → dlookup st.in_degree x = some 0
  zeroQ : ∀ v ∈ keys0, v ∉ st.visited_in_sort → dlookup st.in_degree v = some 0 →
    v ∈ st.queue
  edgeOrd : ∀ c ∈ allConns cf, c.target_id ∈ st.sorted_order →
    c.source_id ∈ st.sorted_order ∧
      posOf st.sorted_order c.source_id < posOf st.sorted_order c.target_id

/-- One visiting iteration of the Kahn loop preserves the invariant. -/
theorem KahnInv_visit (nodes : List (String × Node)) (cf ct : List (String × List Conn))
    (hwf : LoadWF nodes cf ct) (st : KahnState) (u : String) (rest : List String)
    (hq : st.queue = u :: rest) (hu : u ∉ st.visited_in_sort)
    (hinv : KahnInv (dictKeys nodes) cf st) :
    KahnInv (dictKeys nodes) cf
      { in_degree := (kahnConns (u :: st.visited_in_sort) (bucketD cf u)
          (st.in_degree, rest)).1
        queue := (kahnConns (u :: st.visited_in_sort) (bucketD cf u)
          (st.in_degree, rest)).2
        sorted_order := st.sorted_order ++ [u]
        visited_in_sort := u :: st.visited_in_sort } := by
  have huq : u ∈ st.queue := by rw [hq]; exact List.mem_cons_self u rest
  have hukeys : u ∈ dictKeys nodes := hinv.qKeys u huq
  have hcfnodup : (dictKeys cf).Nodup := by rw [hwf.keysF]; exact hwf.nodupN
  have husort : u ∉ st.sorted_order := fun h => hu ((hinv.ordVis u).mp h)
  have hu0 : dlookup st.in_degree u = some 0 := hinv.qZero u huq hu
  have hudeg := hinv.deg u hukeys
  rw [hu0] at hudeg
  have hcnt0 : countTarget (remConns cf st.visited_in_sort) u = 0 := by
    have h := Option.some.inj hudeg
    omega
  have hsrc_vis : ∀ c ∈ allConns cf, c.target_id = u →
      c.source_id ∈ st.visited_in_sort := by
    intro c hc htgt
    obtain ⟨p, hp, hcp⟩ := (mem_allConns cf c).mp hc
    have hpb : c ∈ bucketD cf p.1 := by
      rw [mem_entry_eq_bucketD cf p hcfnodup hp]
      exact hcp
    have hsrc : c.source_id = p.1 := (hwf.srcF p.1 c hpb).1
    by_contra hnv
    have hp1 : p.1 ∉ st.visited_in_sort := by rw [← hsrc]; exact hnv
    have hrem : c ∈ remConns cf st.visited_in_sort :=
      (mem_remConns cf _ c).mpr ⟨p, hp, hp1, hcp⟩
    exact (countTarget_eq_zero_iff _ u).mp hcnt0 c hrem htgt
  have hsplit : ∀ v : String, countTarget (remConns cf st.visited_in_sort) v =
      countTarget (bucketD cf u) v +
        countTarget (remConns cf (u :: st.visited_in_sort)) v :=
    countTarget_remConns_split cf st.visited_in_sort u hcfnodup hu
  have htgt : ∀ c ∈ bucketD cf u, c.target_id ∈ dictKeys st.in_degree := by
    intro c hc
    rw [hinv.keysI]
    exact (hwf.srcF u c hc).2
  have hpre : ∀ (v : String) (d : Int), dlookup st.in_degree v = some d →
      (countTarget (bucketD cf u) v : Int) ≤ d := by
    intro v d hd
    have hvkeys : v ∈ dictKeys nodes := by
      rw [← hinv.keysI]
      exact (dlookup_isSome_iff _ _).mp (by rw [hd]; rfl)
    have hdv := hinv.deg v hvkeys
    rw [hd] at hdv
    have hdeq := Option.some.inj hdv
    have hs := hsplit v
    omega
  have hqz : ∀ x ∈ rest, x ∉ u :: st.visited_in_sort →
      dlookup st.in_degree x = some 0 := by
    intro x hx hxv
    exact hinv.qZero x (by rw [hq]; exact List.mem_cons_of_mem u hx)
      (fun h => hxv (List.mem_cons_of_mem u h))
  have hqc : ∀ v ∈ dictKeys st.in_degree, v ∉ u :: st.visited_in_sort →
      dlookup st.in_degree v = some 0 → v ∈ rest := by
    intro v hv hvv h0
    have hvk : v ∈ dictKeys nodes := by rw [← hinv.keysI]; exact hv
    have hvq := hinv.zeroQ v hvk (fun h => hvv (List.mem_cons_of_mem u h)) h0
    rw [hq] at hvq
    rcases List.mem_cons.mp hvq with h | h
    · exact absurd (by rw [h]; exact List.mem_cons_self u st.visited_in_sort) hvv
    · exact h
  obtain ⟨hkeys2, hdeg2, hqsub2, hqnew2, hqz2, hzq2⟩ :=
    kahnConns_spec (u :: st.visited_in_sort) (bucketD cf u) st.in_degree rest
      htgt hpre hqz hqc
  refine ⟨?_, ?_, ?_, ?_, ?_, ?_, ?_, ?_, ?_⟩
  · dsimp only
    rw [hkeys2, hinv.keysI]
  · intro v hv
    rcases List.mem_cons.mp hv with h | h
    · rw [h]; exact hukeys
    · exact hinv.visKeys v h
  · intro v
    dsimp only
    simp only [List.mem_append, List.mem_singleton, List.mem_cons]
    rw [hinv.ordVis v]
    tauto
  · dsimp only
    rw [List.nodup_append]
    exact ⟨hinv.ordNodup, List.nodup_singleton u,
      fun x hx hxu => husort ((List.mem_singleton.mp hxu) ▸ hx)⟩
  · intro x hx
    rcases hqnew2 x hx with h | ⟨h, -⟩
    · exact hinv.qKeys x (by rw [hq]; exact List.mem_cons_of_mem u h)
    · rw [← hinv.keysI]; exact h
  · intro v hv
    dsimp only
    have hd0 := hinv.deg v hv
    rw [hdeg2 v _ hd0]
    congr 1
    have hs := hsplit v
    omega
  · intro x hx hxv
    exact hqz2 x hx hxv
  · intro v hv hvv h0
    exact hzq2 v (by rw [hinv.keysI]; exact hv) hvv h0
  · intro c hc htgt1
    dsimp only at htgt1 ⊢
    rcases List.mem_append.mp htgt1 with hin | hin
    · obtain ⟨hsrc, hlt⟩ := hinv.edgeOrd c hc hin
      refine ⟨List.mem_append_left _ hsrc, ?_⟩
      rw [posOf_append_left _ _ _ hsrc, posOf_append_left _ _ _ hin]
      exact hlt
    · have htu : c.target_id = u := List.mem_singleton.mp hin
      have hsv : c.source_id ∈ st.visited_in_sort := hsrc_vis c hc htu
      have hss : c.source_id ∈ st.sorted_order := (hinv.ordVis _).mpr hsv
      refine ⟨List.mem_append_left _ hss, ?_⟩
      rw [posOf_append_left _ _ _ hss, htu, posOf_append_self _ _ husort]
      exact posOf_lt_length _ _ hss

/-- The Kahn loop preserves its invariant for any amount of fuel. -/
theorem kahnLoop_inv (nodes : List (String × Node)) (cf ct : List (String × List Conn))
    (hwf : LoadWF nodes cf ct) :
    ∀ (fuel : Nat) (st : KahnState), KahnInv (dictKeys nodes) cf st →
      KahnInv (dictKeys nodes) cf (kahnLoop cf fuel st) := by
  intro fuel
  induction fuel with
  | zero => intro st h; rw [kahnLoop]; exact h
  | succ fuel ih =>
    intro st h
    rw [kahnLoop]
    cases hq : st.queue with
    | nil => exact h
    | cons u rest =>
      dsimp only
      by_cases hu : u ∈ st.visited_in_sort
      · rw [if_pos hu]
        apply ih
        refine ⟨h.keysI, h.visKeys, h.ordVis, h.ordNodup, ?_, h.deg, ?_, ?_, h.edgeOrd⟩
        · intro x hx
          exact h.qKeys x (by rw [hq]; exact List.mem_cons_of_mem u hx)
        · intro x hx hxv
          exact h.qZero x (by rw [hq]; exact List.mem_cons_of_mem u hx) hxv
        · intro v hv hvv h0
          have hvq := h.zeroQ v hv hvv h0
          rw [hq] at hvq
          rcases List.mem_cons.mp hvq with h1 | h1
          · exact absurd (by rw [h1]; exact hu) hvv
          · exact h1
      · rw [if_neg hu]
        apply ih
        exact KahnInv_visit nodes cf ct hwf st u rest hq hu h

theorem posOf_inj (l : List String) (x y : String) (hx : x ∈ l) (hy : y ∈ l)
    (h : posOf l x = posOf l y) : x = y := by
  induction l with
  | nil => cases hx
  | cons a rest ih =>
    by_cases hax : a = x <;> by_cases hay : a = y
    · rw [← hax, ← hay]
    · rw [posOf, if_pos hax, posOf, if_neg hay] at h
      cases h
    · rw [posOf, if_neg hax, posOf, if_pos hay] at h
      cases h
    · rw [posOf, if_neg hax, posOf, if_neg hay] at h
      have hx2 : x ∈ rest := by
        rcases List.mem_cons.mp hx with h1 | h1
        · exact absurd h1.symm hax
        · exact h1
      have hy2 : y ∈ rest := by
        rcases List.mem_cons.mp hy with h1 | h1
        · exact absurd h1.symm hay
        · exact h1
      exact ih hx2 hy2 (Nat.succ_injective h)

/-- A nonempty finite set of nodes in which every node has a predecessor
inside the set forces a directed cycle. -/
theorem cycle_of_closed_pred (cf : List (String × List Conn)) (L : List String)
    (hne : L ≠ []) (hpred : ∀ v ∈ L, ∃ u ∈ L, hasEdge cf u v) : HasCycle cf := by
  classical
  obtain ⟨v0, hv0⟩ := List.exists_mem_of_ne_nil L hne
  have hpred2 : ∀ x : {x : String // x ∈ L}, ∃ y : {x : String // x ∈ L},
      hasEdge cf y.1 x.1 := by
    intro x
    obtain ⟨u, hu, he⟩ := hpred x.1 x.2
    exact ⟨⟨u, hu⟩, he⟩
  choose pick hpick using hpred2
  have hstep : ∀ n : Nat, hasEdge cf (pick^[n+1] ⟨v0, hv0⟩).1 (pick^[n] ⟨v0, hv0⟩).1 := by
    intro n
    rw [Function.iterate_succ_apply']
    exact hpick _
  have hchain : ∀ (d n : Nat),
      Relation.TransGen (hasEdge cf) (pick^[n+d+1] ⟨v0, hv0⟩).1 (pick^[n] ⟨v0, hv0⟩).1 := by
    intro d
    induction d with
    | zero => intro n; exact Relation.TransGen.single (hstep n)
    | succ d ih =>
      intro n
      exact Relation.TransGen.trans
        (Relation.TransGen.single (hstep (n + d + 1))) (ih n)
  have hfin : ∃ i j : Nat, i ≠ j ∧
      (pick^[i] ⟨v0, hv0⟩).1 = (pick^[j] ⟨v0, hv0⟩).1 := by
    have hL : ∀ n : Nat, (pick^[n] ⟨v0, hv0⟩).1 ∈ L := fun n => (pick^[n] ⟨v0, hv0⟩).2
    obtain ⟨i, j, hij, heq⟩ := Finite.exists_ne_map_eq_of_infinite
      (fun n : Nat => (⟨posOf L (pick^[n] ⟨v0, hv0⟩).1,
        posOf_lt_length L _ (hL n)⟩ : Fin L.length))
    refine ⟨i, j, hij, ?_⟩
    exact posOf_inj L _ _ (hL i) (hL j) (congrArg Fin.val heq)
  obtain ⟨i, j, hij, heq⟩ := hfin
  rcases Nat.lt_or_ge i j with hlt | hge
  · refine ⟨(pick^[i] ⟨v0, hv0⟩).1, ?_⟩
    have harith : i + (j - i - 1) + 1 = j := by omega
    have h := hchain (j - i - 1) i
    rw [harith] at h
    rw [← heq] at h
    exact h
  · have hlt : j < i := Nat.lt_of_le_of_ne hge (fun h => hij h.symm)
    refine ⟨(pick^[j] ⟨v0, hv0⟩).1, ?_⟩
    have harith : j + (i - j - 1) + 1 = i := by omega
    have h := hchain (i - j - 1) j
    rw [harith] at h
    rw [heq] at h
    exact h

/-- When the Kahn loop finishes with an empty queue on an acyclic graph, every
node has been emitted: an unvisited remainder would be a nonempty set in which
every node keeps an unvisited predecessor, forcing a cycle. -/
theorem kahn_complete (nodes : List (String × Node)) (cf ct : List (String × List Conn))
    (hwf : LoadWF nodes cf ct) (st : KahnState)
    (hinv : KahnInv (dictKeys nodes) cf st) (hq : st.queue = [])
    (hacyc : Acyclic cf) : ∀ v ∈ dictKeys nodes, v ∈ st.sorted_order := by
  classical
  by_contra hcon
  push_neg at hcon
  obtain ⟨v1, hv1, hv1n⟩ := hcon
  have hmemL : ∀ v : String,
      v ∈ (dictKeys nodes).filter (fun v => decide (v ∉ st.visited_in_sort)) ↔
        v ∈ dictKeys nodes ∧ v ∉ st.visited_in_sort := by
    intro v
    rw [List.mem_filter]
    simp
  have hne : (dictKeys nodes).filter (fun v => decide (v ∉ st.visited_in_sort)) ≠ [] := by
    intro h0
    have hm := (hmemL v1).mpr ⟨hv1, fun hv => hv1n ((hinv.ordVis v1).mpr hv)⟩
    rw [h0] at hm
    cases hm
  have hcfnodup : (dictKeys cf).Nodup := by rw [hwf.keysF]; exact hwf.nodupN
  apply hacyc
  apply cycle_of_closed_pred cf _ hne
  intro v hv
  obtain ⟨hvk, hvnv⟩ := (hmemL v).mp hv
  have hdeg := hinv.deg v hvk
  have hpos : countTarget (remConns cf st.visited_in_sort) v ≠ 0 := by
    intro h0
    have hz : dlookup st.in_degree v = some 0 := by
      rw [hdeg, h0]
      simp
    have hq2 := hinv.zeroQ v hvk hvnv hz
    rw [hq] at hq2
    cases hq2
  have hex : ∃ c ∈ remConns cf st.visited_in_sort, c.target_id = v := by
    by_contra hno
    push_neg at hno
    exact hpos ((countTarget_eq_zero_iff _ v).mpr hno)
  obtain ⟨c, hc, htv⟩ := hex
  obtain ⟨p, hp, hpv, hcp⟩ := (mem_remConns cf _ c).mp hc
  have hpb : c ∈ bucketD cf p.1 := by
    rw [mem_entry_eq_bucketD cf p hcfnodup hp]
    exact hcp
  have hsrc : c.source_id = p.1 := (hwf.srcF p.1 c hpb).1
  have hpk : p.1 ∈ dictKeys nodes := by
    rw [← hwf.keysF]
    exact List.mem_map_of_mem Prod.fst hp
  refine ⟨p.1, (hmemL p.1).mpr ⟨hpk, hpv⟩, ?_⟩
  exact ⟨c, (mem_allConns cf c).mpr ⟨p, hp, hcp⟩, hsrc, htv⟩

/-- The initial Kahn state of `_get_topological_order` (lines 63-67). -/
def kahnInit (nodes : List (String × Node)) (ct : List (String × List Conn)) :
    KahnState :=
  { in_degree := nodes.map (fun p => (p.1, ((bucketD ct p.1).length : Int)))
    queue := ((nodes.map (fun p => (p.1, ((bucketD ct p.1).length : Int)))).filter
      (fun p => p.2 = 0)).map Prod.fst
    sorted_order := []
    visited_in_sort := [] }

theorem getTopologicalOrder_eq (nodes : List (String × Node))
    (cf ct : List (String × List Conn)) (h : ¬ nodes.isEmpty = true) :
    getTopologicalOrder nodes cf ct =
      if (kahnLoop cf (kahnMeasure (kahnInit nodes ct))
            (kahnInit nodes ct)).sorted_order.length = nodes.length
      then (kahnLoop cf (kahnMeasure (kahnInit nodes ct)) (kahnInit nodes ct)).sorted_order
      else nodes.foldl (fun acc p => if p.1 ∈ acc then acc else acc ++ [p.1])
        (kahnLoop cf (kahnMeasure (kahnInit nodes ct)) (kahnInit nodes ct)).sorted_order := by
  rw [getTopologicalOrder, if_neg h]
  rfl

/-- The invariant holds at the initial state. -/
theorem kahnInit_inv (nodes : List (String × Node)) (cf ct : List (String × List Conn))
    (hwf : LoadWF nodes cf ct) : KahnInv (dictKeys nodes) cf (kahnInit nodes ct) := by
  have hlk := dlookup_map_key_fn (fun k => ((bucketD ct k).length : Int)) nodes
  refine ⟨?_, ?_, ?_, ?_, ?_, ?_, ?_, ?_, ?_⟩
  · unfold kahnInit
    dsimp only
    rw [dictKeys, dictKeys, List.map_map]
    rfl
  · intro v hv
    cases hv
  · intro v
    unfold kahnInit
    simp
  · exact List.nodup_nil
  · intro x hx
    unfold kahnInit at hx
    dsimp only at hx
    simp only [List.mem_map, List.mem_filter] at hx
    obtain ⟨q, ⟨hqm, -⟩, hqx⟩ := hx
    obtain ⟨p, hp, hpq⟩ := hqm
    rw [← hqx, ← hpq]
    exact List.mem_map_of_mem Prod.fst hp
  · intro v hv
    unfold kahnInit
    dsimp only
    rw [hlk v, if_pos hv, remConns_nil_vis, hwf.cnt v]
  · intro x hx hxv
    unfold kahnInit at hx ⊢
    dsimp only at hx ⊢
    simp only [List.mem_map, List.mem_filter] at hx
    obtain ⟨q, ⟨hqm, hq0⟩, hqx⟩ := hx
    obtain ⟨p, hp, hpq⟩ := hqm
    have hxk : x ∈ dictKeys nodes := by
      rw [← hqx, ← hpq]
      exact List.mem_map_of_mem Prod.fst hp
    rw [hlk x, if_pos hxk]
    simp only [decide_eq_true_eq] at hq0
    have hqv : ((bucketD ct x).length : Int) = q.2 := by
      rw [← hqx, ← hpq]
    rw [hqv, hq0]
  · intro v hv hvv h0
    unfold kahnInit at h0 ⊢
    dsimp only at h0 ⊢
    rw [hlk v, if_pos hv] at h0
    have hg0 : ((bucketD ct v).length : Int) = 0 := Option.some.inj h0
    have hv2 : v ∈ List.map Prod.fst nodes := hv
    obtain ⟨p, hp, hpv⟩ := List.mem_map.mp hv2
    refine List.mem_map.mpr ⟨(v, ((bucketD ct v).length : Int)), ?_, rfl⟩
    rw [List.mem_filter]
    constructor
    · refine List.mem_map.mpr ⟨p, hp, ?_⟩
      rw [hpv]
    · simp [hg0]
  · intro c hc htgt
    cases htgt

/-- On an acyclic loaded graph, `_get_topological_order` returns a genuine
topological order: every node id exactly once, sources before targets. -/
theorem getTopologicalOrder_correct (nodes : List (String × Node))
    (cf ct : List (String × List Conn)) (hwf : LoadWF nodes cf ct)
    (hacyc : Acyclic cf) :
    (∀ v : String, v ∈ getTopologicalOrder nodes cf ct ↔ v ∈ dictKeys nodes) ∧
    (getTopologicalOrder nodes cf ct).Nodup ∧
    ∀ c ∈ allConns cf, posOf (getTopologicalOrder nodes cf ct) c.source_id <
      posOf (getTopologicalOrder nodes cf ct) c.target_id := by
  classical
  by_cases hnil : nodes.isEmpty = true
  · have hnodes : nodes = [] := by
      cases nodes with
      | nil => rfl
      | cons p l => cases hnil
    subst hnodes
    rw [getTopologicalOrder_nil]
    refine ⟨?_, List.nodup_nil, ?_⟩
    · intro v
      simp [dictKeys]
    · intro c hc
      obtain ⟨p, hp, -⟩ := (mem_allConns cf c).mp hc
      have hpk : p.1 ∈ dictKeys cf := List.mem_map_of_mem Prod.fst hp
      rw [hwf.keysF] at hpk
      simp [dictKeys] at hpk
  · have hinv : KahnInv (dictKeys nodes) cf
        (kahnLoop cf (kahnMeasure (kahnInit nodes ct)) (kahnInit nodes ct)) :=
      kahnLoop_inv nodes cf ct hwf _ _ (kahnInit_inv nodes cf ct hwf)
    have hqe : (kahnLoop cf (kahnMeasure (kahnInit nodes ct))
        (kahnInit nodes ct)).queue = [] :=
      kahnLoop_queue_empty cf _ _ (Nat.le_refl _)
    have hcomp := kahn_complete nodes cf ct hwf _ hinv hqe hacyc
    set st := kahnLoop cf (kahnMeasure (kahnInit nodes ct)) (kahnInit nodes ct) with hst
    have hiff : ∀ v : String, v ∈ st.sorted_order ↔ v ∈ dictKeys nodes := by
      intro v
      constructor
      · intro h
        exact hinv.visKeys v ((hinv.ordVis v).mp h)
      · intro h
        exact hcomp v h
    have hnodup := hinv.ordNodup
    have hlen : st.sorted_order.length = nodes.length := by
      have h1 : st.sorted_order.toFinset = (dictKeys nodes).toFinset := by
        apply Finset.ext
        intro v
        simp only [List.mem_toFinset]
        exact hiff v
      have h2 : st.sorted_order.toFinset.card = st.sorted_order.length :=
        List.toFinset_card_of_nodup hnodup
      have h3 : (dictKeys nodes).toFinset.card = (dictKeys nodes).length :=
        List.toFinset_card_of_nodup hwf.nodupN
      have h4 : (dictKeys nodes).length = nodes.length := List.length_map nodes Prod.fst
      rw [← h2, h1, h3, h4]
    rw [getTopologicalOrder_eq nodes cf ct hnil, ← hst, if_pos hlen]
    refine ⟨hiff, hnodup, ?_⟩
    intro c hc
    have htk : c.target_id ∈ dictKeys nodes := by
      obtain ⟨p, hp, hcp⟩ := (mem_allConns cf c).mp hc
      have hpb : c ∈ bucketD cf p.1 := by
        rw [mem_entry_eq_bucketD cf p (by rw [hwf.keysF]; exact hwf.nodupN) hp]
        exact hcp
      exact (hwf.srcF p.1 c hpb).2
    have hts : c.target_id ∈ st.sorted_order := (hiff _).mpr htk
    exact (hinv.edgeOrd c hc hts).2

/-- Claim C2: for every loaded acyclic graph, the evaluation order computed by
the topological scheduler is a valid topological order — it contains every
node id exactly once (membership coincides with the node-key set and the order
has no duplicates), and for every loaded connection the position of the source
node strictly precedes the position of the target node. -/
theorem topological_order_correct (w : Workflow)
    (hacyc : Acyclic (mkEngine w).connections_from_source) :
    (∀ v : String, v ∈ (mkEngine w).node_order ↔ v ∈ dictKeys (mkEngine w).nodes) ∧
    (mkEngine w).node_order.Nodup ∧
    ∀ c ∈ allConns (mkEngine w).connections_from_source,
      posOf (mkEngine w).node_order c.source_id <
        posOf (mkEngine w).node_order c.target_id := by
  classical
  have hwf := mkEngine_wf w
  by_cases hn : (mkEngine w).nodes = []
  · have hord := mkEngine_order_of_nodes_nil w hn
    refine ⟨?_, ?_, ?_⟩
    · intro v
      rw [hord, hn]
      simp [dictKeys]
    · rw [hord]
      exact List.nodup_nil
    · intro c hc
      obtain ⟨p, hp, -⟩ := (mem_allConns _ c).mp hc
      have hpk : p.1 ∈ dictKeys (mkEngine w).connections_from_source :=
        List.mem_map_of_mem Prod.fst hp
      rw [hwf.keysF, hn] at hpk
      simp [dictKeys] at hpk
  · have hcorr := getTopologicalOrder_correct (mkEngine w).nodes
      (mkEngine w).connections_from_source (mkEngine w).connections_to_target hwf hacyc
    have hone : getTopologicalOrder (mkEngine w).nodes
        (mkEngine w).connections_from_source (mkEngine w).connections_to_target ≠ [] := by
      obtain ⟨p, hp⟩ := List.exists_mem_of_ne_nil _ hn
      have hk : p.1 ∈ dictKeys (mkEngine w).nodes := List.mem_map_of_mem Prod.fst hp
      have hv := (hcorr.1 p.1).mpr hk
      intro h0
      rw [h0] at hv
      cases hv
    have hOrd : (mkEngine w).node_order =
        getTopologicalOrder (mkEngine w).nodes (mkEngine w).connections_from_source
          (mkEngine w).connections_to_target := by
      rw [mkEngine_node_order]
      dsimp only
      rw [if_neg]
      · rfl
      · intro hcond
        exact hone (List.isEmpty_iff.mp hcond.1)
    rw [hOrd]
    exact hcorr

/-- The engine loaded from `sampleGateWorkflow` is acyclic and its computed
order is a valid topological order, instantiating `topological_order_correct`
on a concrete workflow. -/
theorem topological_order_correct_witness :
    Acyclic (mkEngine sampleGateWorkflow).connections_from_source ∧
    ((∀ v : String, v ∈ (mkEngine sampleGateWorkflow).node_order ↔
        v ∈ dictKeys (mkEngine sampleGateWorkflow).nodes) ∧
      (mkEngine sampleGateWorkflow).node_order.Nodup ∧
      ∀ c ∈ allConns (mkEngine sampleGateWorkflow).connections_from_source,
        posOf (mkEngine sampleGateWorkflow).node_order c.source_id <
          posOf (mkEngine sampleGateWorkflow).node_order c.target_id) := by
  have hall : allConns (mkEngine sampleGateWorkflow).connections_from_source =
      [{ source_id := "X", source_output_key := "output", target_id := "D",
         target_input_key := "input0", id := "c1" }] := rfl
  have hedge : ∀ a b : String,
      hasEdge (mkEngine sampleGateWorkflow).connections_from_source a b →
        a = "X" ∧ b = "D" := by
    intro a b h
    have h2 : ∃ c ∈ allConns (mkEngine sampleGateWorkflow).connections_from_source,
        c.source_id = a ∧ c.target_id = b := h
    obtain ⟨c, hc, hs, ht⟩ := h2
    rw [hall, List.mem_singleton] at hc
    subst hc
    exact ⟨hs.symm, ht.symm⟩
  have hacyc : Acyclic (mkEngine sampleGateWorkflow).connections_from_source := by
    intro hcyc
    obtain ⟨v, htg⟩ := hcyc
    have hres : ∀ a b : String,
        Relation.TransGen
            (hasEdge (mkEngine sampleGateWorkflow).connections_from_source) a b →
          a = "X" ∧ b = "D" := by
      intro a b h
      induction h with
      | single h1 => exact hedge _ _ h1
      | tail h1 h2 ih =>
        exact absurd (ih.2.symm.trans (hedge _ _ h2).1) (by decide)
    exact absurd ((hres v v htg).1.symm.trans (hres v v htg).2) (by decide)
  exact ⟨hacyc, topological_order_correct sampleGateWorkflow hacyc⟩
